import Mathlib

/-!
Verification of the markdown section-extraction / normalization / emission
pipeline of the OpenResponses auxiliary scripts
(`scripts/sync_app_store_metadata.py`, `scripts/generate_portfolio_content.py`,
`scripts/secret_scan.py`).

Python strings are shallowly embedded as `List Char` (`PyStr`); every Unicode
scalar of a Python `str` is one `Char`.  The fixed regular expressions of the
scripts are embedded as the deterministic scanning functions they denote (each
embedding is justified next to its definition).  File writes are recorded in an
explicit write list instead of touching a file system; the CLI exit code is the
returned `Nat`.
-/

set_option maxHeartbeats 1000000
set_option maxRecDepth 10000

/-- A Python `str`: a list of Unicode scalars. -/
abbrev PyStr := List Char

/-- Convert a Lean string literal to the embedded representation. -/
def pys (s : String) : PyStr := s.data

/-- Python's notion of a whitespace character (`str.isspace`, also the set
stripped by `str.strip()` / `rstrip()` / `split()` and matched by `\s` in an
`re` pattern over `str`). -/
def pyIsSpace (c : Char) : Bool :=
  let n := c.toNat
  n = 0x20 || n = 0x09 || n = 0x0a || n = 0x0b || n = 0x0c || n = 0x0d ||
  n = 0x1c || n = 0x1d || n = 0x1e || n = 0x1f ||
  n = 0x85 || n = 0xa0 || n = 0x1680 ||
  (0x2000 <= n && n <= 0x200a) ||
  n = 0x2028 || n = 0x2029 || n = 0x202f || n = 0x205f || n = 0x3000

/-- Python `str.lstrip()`. -/
def lstrip (s : PyStr) : PyStr := s.dropWhile pyIsSpace

/-- Python `str.rstrip()`. -/
def rstrip (s : PyStr) : PyStr := (s.reverse.dropWhile pyIsSpace).reverse

/-- Python `str.strip()` (strips both ends; the two sides are independent,
so stripping right-then-left computes it). -/
def strip (s : PyStr) : PyStr := lstrip (rstrip s)

/-- The characters Python `str.splitlines` recognises as line boundaries
(`\r\n` counts as a single boundary). -/
def isLineBoundary (c : Char) : Bool :=
  let n := c.toNat
  n = 0x0a || n = 0x0d || n = 0x0b || n = 0x0c ||
  n = 0x1c || n = 0x1d || n = 0x1e ||
  n = 0x85 || n = 0x2028 || n = 0x2029

/-- Python `str.splitlines()`: split at every line boundary, treating `\r\n`
as one boundary; a trailing boundary does not produce a final empty line. -/
def splitlines : PyStr → List PyStr
  | [] => []
  | c :: rest =>
    if isLineBoundary c then
      match c, rest with
      | '\r', '\n' :: r => [] :: splitlines r
      | _, r2 => [] :: splitlines r2
    else
      match splitlines rest with
      | [] => [[c]]
      | l :: ls => (c :: l) :: ls

/-- `sep.join(...)`: the parts interleaved with the separator. -/
def joinWith (sep : PyStr) : List PyStr → PyStr
  | [] => []
  | [l] => l
  | l :: ls => l ++ sep ++ joinWith sep ls

/-- `"\n".join(...)` over embedded strings. -/
def joinNL (ls : List PyStr) : PyStr := joinWith ['\n'] ls

/-- Python `s.replace(src, dst)` for a single-character pattern `src`
(with a one-character pattern the left-to-right non-overlapping replacement
is exactly character-wise expansion). -/
def replace1 (src : Char) (dst : PyStr) (s : PyStr) : PyStr :=
  s.flatMap (fun c => if c = src then dst else [c])

/-- The `ASCII_MAP` substitution table of `sync_app_store_metadata.py`. -/
def ASCII_MAP : List (Char × PyStr) :=
  [ ('—', pys "--"),
    ('–', pys "-"),
    ('’', pys "'"),
    ('‘', pys "'"),
    ('“', pys "\""),
    ('”', pys "\""),
    ('…', pys "..."),
    ('⋯', pys "..."),
    (Char.ofNat 0xa0, pys " ") ]

/-- `asciiize`: apply each `ASCII_MAP` replacement in table order. -/
def asciiize (s : PyStr) : PyStr :=
  ASCII_MAP.foldl (fun acc p => replace1 p.1 p.2 acc) s

/-- Length of the maximal run of characters satisfying `p` at the front. -/
def runLen (p : Char → Bool) (s : PyStr) : Nat := (s.takeWhile p).length

/-- `re.sub(r"^#{1,6}\s+", "", line)`: without `re.M` the anchor only matches
at position 0, so at most the single leading occurrence is removed.  The
pattern matches iff the leading `#`-run has length 1..6 and is followed by at
least one whitespace character (with seven or more `#` every backtracking
choice of 1..6 leaves a next character `#`, which is not whitespace); greedy
`\s+` then consumes the whole whitespace run. -/
def stripHashes (s : PyStr) : PyStr :=
  let k := runLen (fun c => c = '#') s
  let afterHash := s.drop k
  if 1 ≤ k && k ≤ 6 && (afterHash.headD ' ' |> pyIsSpace) && !afterHash.isEmpty then
    afterHash.dropWhile pyIsSpace
  else s

/-- `line.replace("**", "")`: remove the non-overlapping occurrences of `**`
found scanning left to right. -/
def replaceStarStar : PyStr → PyStr
  | '*' :: '*' :: rest => replaceStarStar rest
  | c :: rest => c :: replaceStarStar rest
  | [] => []

/-- `re.sub(r"\*([^*]+)\*", r"\1", line)`: scanning left to right, a match at
a position needs a `*`, then the maximal nonempty run of non-`*` characters
(backtracking to a shorter run cannot succeed because the next character
would again be a non-`*`), then a closing `*`; the match is replaced by the
inner run and scanning resumes after the closing `*`. -/
def italicAux : Option PyStr → PyStr → PyStr
  | none, [] => []
  | none, '*' :: t => italicAux (some []) t
  | none, c :: t => c :: italicAux none t
  | some acc, [] => '*' :: acc.reverse
  | some acc, '*' :: t =>
    if acc.isEmpty then '*' :: italicAux (some []) t
    else acc.reverse ++ italicAux none t
  | some acc, c :: t => italicAux (some (c :: acc)) t

/-- The scan as applied to a whole line, starting outside any match. -/
def italicSub (s : PyStr) : PyStr := italicAux none s

/-- `strip_markdown` of `sync_app_store_metadata.py`. -/
def strip_markdown (line : PyStr) : PyStr :=
  italicSub (replaceStarStar (stripHashes line))

/-- `normalize_plain` of `sync_app_store_metadata.py`. -/
def normalize_plain (lines : List PyStr) : PyStr :=
  strip (joinNL (lines.map (fun l => asciiize (rstrip l))))

/-- `normalize_markdown` of `sync_app_store_metadata.py`. -/
def normalize_markdown (lines : List PyStr) : PyStr :=
  strip (joinNL (lines.map (fun l => asciiize (strip_markdown (rstrip l)))))

/-! ## Python dicts as insertion-ordered association lists -/

/-- `k in d` / `d.get(k)` for a Python dict (string keys). -/
def dLookup {α : Type} (d : List (PyStr × α)) (k : PyStr) : Option α :=
  match d with
  | [] => none
  | (k', v) :: rest => if k' = k then some v else dLookup rest k

/-- `d[k] = v`: update in place when the key exists (keeping its insertion
position), otherwise append at the end. -/
def dSet {α : Type} (d : List (PyStr × α)) (k : PyStr) (v : α) : List (PyStr × α) :=
  match d with
  | [] => [(k, v)]
  | (k', v') :: rest => if k' = k then (k', v) :: rest else (k', v') :: dSet rest k v

/-- `d.setdefault(k, v)`: insert only when the key is absent. -/
def dSetdefault {α : Type} (d : List (PyStr × α)) (k : PyStr) (v : α) : List (PyStr × α) :=
  match dLookup d k with
  | some _ => d
  | none => d ++ [(k, v)]

/-- Mutate the value stored under an existing key (`d[k].append(...)`). -/
def dModify {α : Type} (d : List (PyStr × α)) (k : PyStr) (f : α → α) : List (PyStr × α) :=
  match d with
  | [] => []
  | (k', v) :: rest => if k' = k then (k', f v) :: rest else (k', v) :: dModify rest k f

/-! ## `parse_sections` -/

/-- First piece of Python `s.split(sep)` for the two-character separator
`" ("`: the characters before the first occurrence (the whole string when
there is none). -/
def takeBeforeSub (sep : PyStr) : PyStr → PyStr
  | [] => []
  | c :: t => if sep.isPrefixOf (c :: t) then [] else c :: takeBeforeSub sep t

/-- Python `sub in s` (substring containment). -/
def containsSub (sep : PyStr) : PyStr → Bool
  | [] => sep.isPrefixOf []
  | c :: t => sep.isPrefixOf (c :: t) || containsSub sep t

/-- The section label computed for a `## ` heading line:
`line[3:].strip()`, then `.split(" (")[0].strip()`. -/
def headingLabel (line : PyStr) : PyStr :=
  strip (takeBeforeSub (pys " (") (strip (line.drop 3)))

/-- The loop body of `parse_sections`, carrying the mapping built so far and
the label of the currently open section. -/
def parseSectionsGo (sections : List (PyStr × List PyStr)) (current : Option PyStr) :
    List PyStr → List (PyStr × List PyStr)
  | [] => sections
  | line :: rest =>
    if (pys "## ").isPrefixOf line then
      let h := headingLabel line
      parseSectionsGo (dSetdefault sections h []) (some h) rest
    else
      match current with
      | none => parseSectionsGo sections none rest
      | some c => parseSectionsGo (dModify sections c (fun ls => ls ++ [line])) (some c) rest

/-- `parse_sections` of `sync_app_store_metadata.py` (its `text.splitlines()`
loop over the document text). -/
def parse_sections (text : PyStr) : List (PyStr × List PyStr) :=
  parseSectionsGo [] none (splitlines text)

/-! ## `parse_labeled_bullets` -/

/-- Strip the trailing colons of a label: Python `s.rstrip(":")`. -/
def rstripColons (s : PyStr) : PyStr := (s.reverse.dropWhile (fun c => c = ':')).reverse

/-- `re.compile(r"^-\s+\*\*([^*]+)\*\*\s+(.*)$").match(s)`, returning the two
captured groups.  The scan is deterministic: each `\s+` / `[^*]+` consumes its
maximal nonempty run (shrinking a run on backtracking re-tests a character
that just failed the follow-up literal, so it never helps), each `\*\*` needs
two literal stars, and `(.*)$` accepts exactly when what remains after the
last whitespace run contains no newline other than a final one (`$` also
matches just before a final newline, which greedy `.*` then excludes from the
capture). -/
def matchLB (s : PyStr) : Option (PyStr × PyStr) :=
  match s with
  | '-' :: t =>
    let u := t.dropWhile pyIsSpace
    if (t.takeWhile pyIsSpace).isEmpty then none
    else
      match u with
      | '*' :: '*' :: v =>
        let g1 := v.takeWhile (fun x => x ≠ '*')
        let w := v.dropWhile (fun x => x ≠ '*')
        if g1.isEmpty then none
        else
          match w with
          | '*' :: '*' :: x =>
            let y := x.dropWhile pyIsSpace
            if (x.takeWhile pyIsSpace).isEmpty then none
            else
              let core := if y.getLast? = some '\n' then y.dropLast else y
              if core.any (fun c => c = '\n') then none else some (g1, core)
          | _ => none
      | _ => none
  | _ => none

/-- `parse_labeled_bullets` of `sync_app_store_metadata.py`. -/
def parse_labeled_bullets (lines : List PyStr) : List (PyStr × PyStr) :=
  lines.foldl
    (fun data line =>
      match matchLB (strip line) with
      | some (g1, g2) => dSet data (rstripColons (strip g1)) (strip g2)
      | none => data)
    []

/-! ## `extract_url`, `extract_email`, `extract_phone` -/

/-- `re.search(r"<([^>]+)>", s)`: scan for the leftmost `<` followed by a
nonempty run of non-`>` characters and a closing `>`; return the run. -/
def bracketSearch : PyStr → Option PyStr
  | [] => none
  | '<' :: t =>
    let run := t.takeWhile (fun c => c ≠ '>')
    if run.isEmpty then bracketSearch t
    else
      match t.dropWhile (fun c => c ≠ '>') with
      | '>' :: _ => some run
      | _ => bracketSearch t
  | _ :: t => bracketSearch t

/-- Match of `https?://\S+` anchored at the start of `s`: the optional `s` is
tried greedily (the two literal alternatives are disjoint on any input), then
`\S+` consumes the maximal nonempty run of non-whitespace. -/
def matchHttpAt (s : PyStr) : Option PyStr :=
  if (pys "https://").isPrefixOf s then
    let run := (s.drop 8).takeWhile (fun c => !pyIsSpace c)
    if run.isEmpty then none else some (pys "https://" ++ run)
  else if (pys "http://").isPrefixOf s then
    let run := (s.drop 7).takeWhile (fun c => !pyIsSpace c)
    if run.isEmpty then none else some (pys "http://" ++ run)
  else none

/-- `re.search` for `https?://\S+`: leftmost match. -/
def searchHttp : PyStr → Option PyStr
  | [] => none
  | c :: t =>
    match matchHttpAt (c :: t) with
    | some m => some m
    | none => searchHttp t

/-- Python `s.rstrip("().,")`-style strip for the literal set used on URL
matches (`.rstrip(").,")`). -/
def rstripUrlPunct (s : PyStr) : PyStr :=
  (s.reverse.dropWhile (fun c => c = ')' || c = '.' || c = ',')).reverse

/-- Python `s.split()` (split on runs of whitespace, no empty parts). -/
def pyWsSplitGo (cur : PyStr) : PyStr → List PyStr
  | [] => if cur.isEmpty then [] else [cur.reverse]
  | c :: t =>
    if pyIsSpace c then
      if cur.isEmpty then pyWsSplitGo [] t else cur.reverse :: pyWsSplitGo [] t
    else pyWsSplitGo (c :: cur) t

/-- Python `s.split()`. -/
def pyWsSplit (s : PyStr) : List PyStr := pyWsSplitGo [] s

/-- `extract_url` of `sync_app_store_metadata.py`.  (`value.split()[0]` is
modelled with a `[]` default; every caller passes non-blank stripped text, on
which the Python expression is defined.) -/
def extract_url (value : PyStr) : PyStr :=
  if value.isEmpty then []
  else
    match bracketSearch value with
    | some g => g
    | none =>
      match searchHttp value with
      | some m => rstripUrlPunct m
      | none => (pyWsSplit value).headD []

/-- `re.search(r"mailto:([^>\\s]+)", value)` — the pattern is a raw string,
so `\\s` is an escaped backslash followed by `s`: the class excludes `>`,
backslash and the letter `s` (not whitespace). -/
def searchMailto : PyStr → Option PyStr
  | [] => none
  | c :: t =>
    if (pys "mailto:").isPrefixOf (c :: t) then
      let run := ((c :: t).drop 7).takeWhile (fun x => x ≠ '>' && x ≠ '\\' && x ≠ 's')
      if run.isEmpty then searchMailto t else some run
    else searchMailto t

/-- Character class `[A-Za-z0-9._%+-]`. -/
def isEmailC1 (c : Char) : Bool :=
  c.isAlpha || c.isDigit || c = '.' || c = '_' || c = '%' || c = '+' || c = '-'

/-- Character class `[A-Za-z0-9.-]`. -/
def isEmailC2 (c : Char) : Bool := c.isAlpha || c.isDigit || c = '.' || c = '-'

/-- Match of `[A-Za-z0-9._%+-]+@[A-Za-z0-9.-]+\\.[A-Za-z]{2,}` anchored at the
start of `s`.  In this raw-string pattern `\\.` is an escaped backslash
followed by `.`: a literal backslash then any non-newline character.  Each
greedy class run is maximal (the following literal is outside the class, so
backtracking cannot help). -/
def matchEmailAt (s : PyStr) : Option PyStr :=
  let r1 := s.takeWhile isEmailC1
  if r1.isEmpty then none
  else
    match s.drop r1.length with
    | '@' :: u =>
      let r2 := u.takeWhile isEmailC2
      if r2.isEmpty then none
      else
        match u.drop r2.length with
        | '\\' :: d :: v =>
          if d = '\n' then none
          else
            let r3 := v.takeWhile Char.isAlpha
            if r3.length < 2 then none
            else some (r1 ++ '@' :: (r2 ++ '\\' :: d :: r3))
        | _ => none
    | _ => none

/-- `re.search` for the second `extract_email` pattern: leftmost match. -/
def searchEmail : PyStr → Option PyStr
  | [] => none
  | c :: t =>
    match matchEmailAt (c :: t) with
    | some m => some m
    | none => searchEmail t

/-- `extract_email` of `sync_app_store_metadata.py` (same `split()[0]`
remark as for `extract_url`). -/
def extract_email (value : PyStr) : PyStr :=
  if value.isEmpty then []
  else
    match searchMailto value with
    | some g => g
    | none =>
      match searchEmail value with
      | some m => m
      | none => (pyWsSplit value).headD []

/-- Character class `[\\d\\s().-]` of the raw-string phone pattern: backslash,
`d`, `s`, parentheses, dot, hyphen (not digits or whitespace). -/
def isPhoneClassC (c : Char) : Bool :=
  c = '\\' || c = 'd' || c = 's' || c = '(' || c = ')' || c = '.' || c = '-'

/-- Match of `\\+?\\d[\\d\\s().-]{6,}` anchored at the start of `s`: lazily
one-or-more backslashes, one more backslash, a literal `d`, then six or more
characters of the class; succeeds iff the maximal leading backslash run has
length at least two and is followed by `d` and six class characters. -/
def matchPhoneAt (s : PyStr) : Option PyStr :=
  let bs := s.takeWhile (fun c => c = '\\')
  if bs.length < 2 then none
  else
    match s.drop bs.length with
    | 'd' :: u =>
      let r := u.takeWhile isPhoneClassC
      if r.length < 6 then none else some (bs ++ 'd' :: r)
    | _ => none

/-- `re.search` for the phone pattern: leftmost match. -/
def searchPhone : PyStr → Option PyStr
  | [] => none
  | c :: t =>
    match matchPhoneAt (c :: t) with
    | some m => some m
    | none => searchPhone t

/-- `extract_phone` of `sync_app_store_metadata.py`. -/
def extract_phone (value : PyStr) : PyStr :=
  if value.isEmpty then []
  else
    match searchPhone value with
    | some m => strip m
    | none => strip value

/-! ## Subsections, note lines, names, `require` -/

/-- `extract_subsection` of `sync_app_store_metadata.py`.  Python `.lower()`
is modelled by the ASCII case map (`Char.toLower`); the markers compared
against are ASCII. -/
def extract_subsection (lines : List PyStr) (heading : PyStr) : List PyStr :=
  let marker := (strip (pys "### " ++ heading)).map Char.toLower
  match lines.findIdx? (fun l => (strip l).map Char.toLower = marker) with
  | none => []
  | some idx =>
    let block := (lines.drop (idx + 1)).takeWhile (fun l => !(pys "### ").isPrefixOf l)
    let block2 := block.dropWhile (fun l => (strip l).isEmpty)
    (block2.reverse.dropWhile (fun l => (strip l).isEmpty)).reverse

/-- `extract_note_lines` of `sync_app_store_metadata.py`. -/
def extract_note_lines (lines : List PyStr) : List PyStr :=
  (lines.filter (fun l => (pys "note:").isPrefixOf ((strip l).map Char.toLower))).map
    (fun l => strip_markdown (strip l))

/-- `split_name` of `sync_app_store_metadata.py`. -/
def split_name (full_name : PyStr) : PyStr × PyStr :=
  let parts := (pyWsSplit full_name).filter (fun p => !(strip p).isEmpty)
  match parts with
  | [] => ([], [])
  | [p] => (p, [])
  | p :: rest => (p, joinWith (pys " ") rest)

/-- `require` of `sync_app_store_metadata.py`: `KeyError` becomes `.error`. -/
def requireE (mapping : List (PyStr × PyStr)) (key : PyStr) : Except PyStr PyStr :=
  match dLookup mapping key with
  | none => .error key
  | some v => if (strip v).isEmpty then .error key else .ok (strip v)

/-! ## `main` of `sync_app_store_metadata.py`

The filesystem is replaced by explicit write lists (`OUTPUT_DIR` files in
`metaWrites`, `REVIEW_INFO_DIR` files in `reviewWrites`, both in write order),
stderr by `errs`, and the return value by `exitCode`.  The source-file
existence check is outside the model (the document text is the input). -/

structure RunResult where
  exitCode : Nat
  errs : List PyStr
  metaWrites : List (PyStr × PyStr)
  reviewWrites : List (PyStr × PyStr)
deriving DecidableEq, Repr

/-- The `required_sections` list of `main`. -/
def requiredSections : List PyStr :=
  [pys "Quick Reference", pys "Promotional Text", pys "Full Description",
   pys "Keywords", pys "URLs"]

/-- The release-notes key marker `"What's New in "`. -/
def whatsNewMarker : PyStr := pys "What's New in "

/-- The `for filename, content in files.items()` emission loop: each file is
checked for empty content immediately before being written, and the loop
stops at the first empty one.  Returns the writes performed (with the
`f"{content.strip()}\n"` payload) and the failing filename, if any. -/
def writeLoop : List (PyStr × PyStr) → List (PyStr × PyStr) × Option PyStr
  | [] => ([], none)
  | (fn, content) :: rest =>
    if content.isEmpty then ([], some fn)
    else
      let r := writeLoop rest
      ((fn, strip content ++ ['\n']) :: r.1, r.2)

/-- The `try: ... require ... except KeyError` blocks: sequence `require`
calls, stopping at the first failing key. -/
def require4 (m : List (PyStr × PyStr)) (k1 k2 k3 k4 : PyStr) :
    Except PyStr (PyStr × PyStr × PyStr × PyStr) := do
  let a ← requireE m k1
  let b ← requireE m k2
  let c ← requireE m k3
  let d ← requireE m k4
  pure (a, b, c, d)

/-- Three-key variant of the same pattern. -/
def require3 (m : List (PyStr × PyStr)) (k1 k2 k3 : PyStr) :
    Except PyStr (PyStr × PyStr × PyStr) := do
  let a ← requireE m k1
  let b ← requireE m k2
  let c ← requireE m k3
  pure (a, b, c)

/-- `main` of `sync_app_store_metadata.py` on the source document text. -/
def mainRun (text : PyStr) : RunResult :=
  let sections := parse_sections text
  let missing := requiredSections.filter (fun s => (dLookup sections s).isNone)
  if !missing.isEmpty then
    ⟨1, [pys "Missing sections: " ++ joinWith (pys ", ") missing], [], []⟩
  else
    match (sections.map Prod.fst).find? (fun k => whatsNewMarker.isPrefixOf k) with
    | none =>
      ⟨1, [pys "Missing release notes section (expected 'What's New in X.Y.Z')"],
        [], []⟩
    | some releaseKey =>
      let quick_ref := parse_labeled_bullets ((dLookup sections (pys "Quick Reference")).getD [])
      let urls := parse_labeled_bullets ((dLookup sections (pys "URLs")).getD [])
      let review_section := (dLookup sections (pys "Review Information")).getD []
      let review_info := parse_labeled_bullets review_section
      match require4 quick_ref (pys "Name") (pys "Subtitle") (pys "Primary Category")
          (pys "Secondary Category") with
      | .error k => ⟨1, [pys "Missing Quick Reference field: " ++ k], [], []⟩
      | .ok (name, subtitle, pc, sc) =>
        match require3 urls (pys "Marketing URL") (pys "Support URL")
            (pys "Privacy Policy URL") with
        | .error k => ⟨1, [pys "Missing URL field: " ++ k], [], []⟩
        | .ok (mu, su, pu) =>
          let files : List (PyStr × PyStr) :=
            [ (pys "name.txt", asciiize name),
              (pys "subtitle.txt", asciiize subtitle),
              (pys "promotional_text.txt",
                normalize_plain ((dLookup sections (pys "Promotional Text")).getD [])),
              (pys "description.txt",
                normalize_markdown ((dLookup sections (pys "Full Description")).getD [])),
              (pys "keywords.txt",
                normalize_plain ((dLookup sections (pys "Keywords")).getD [])),
              (pys "release_notes.txt",
                normalize_markdown ((dLookup sections releaseKey).getD [])),
              (pys "marketing_url.txt", asciiize (extract_url mu)),
              (pys "support_url.txt", asciiize (extract_url su)),
              (pys "privacy_url.txt", asciiize (extract_url pu)),
              (pys "primary_category.txt", asciiize pc),
              (pys "secondary_category.txt", asciiize sc) ]
          match writeLoop files with
          | (ws, some fn) => ⟨1, [pys "Missing content for " ++ fn], ws, []⟩
          | (ws, none) =>
            if review_info.isEmpty then ⟨0, [], ws, []⟩
            else
              match require3 review_info (pys "Contact Name") (pys "Contact Email")
                  (pys "Contact Phone") with
              | .error k => ⟨1, [pys "Missing Review Information field: " ++ k], ws, []⟩
              | .ok (cn, ce, cp) =>
                let fl := split_name (strip_markdown cn)
                let email := extract_email ce
                let phone := extract_phone (strip_markdown cp)
                let parts1 : List PyStr :=
                  match dLookup review_info (pys "Demo Account") with
                  | some v =>
                    if v.isEmpty then [] else [pys "Demo account: " ++ strip_markdown v]
                  | none => []
                let parts2 : List PyStr :=
                  match dLookup review_info (pys "Availability") with
                  | some v =>
                    if v.isEmpty then [] else [pys "Availability: " ++ strip_markdown v]
                  | none => []
                let demo_content :=
                  (extract_subsection review_section (pys "Demo Content Provided")).filter
                    (fun l => !(pys "note:").isPrefixOf ((strip l).map Char.toLower))
                let parts3 : List PyStr :=
                  if demo_content.isEmpty then []
                  else [pys "Demo content provided:\n" ++ normalize_markdown demo_content]
                let walkthrough :=
                  extract_subsection ((dLookup sections (pys "Review Information")).getD [])
                    (pys "Reviewer Walkthrough")
                let parts4 : List PyStr :=
                  if walkthrough.isEmpty then []
                  else [pys "Reviewer walkthrough:\n" ++ normalize_markdown walkthrough]
                let note_lines := extract_note_lines review_section
                let parts5 : List PyStr :=
                  if note_lines.isEmpty then [] else [joinNL note_lines]
                let notes :=
                  strip (joinWith (pys "\n\n") (parts1 ++ parts2 ++ parts3 ++ parts4 ++ parts5))
                let review_files : List (PyStr × PyStr) :=
                  [ (pys "first_name.txt", asciiize fl.1),
                    (pys "last_name.txt", asciiize fl.2),
                    (pys "email_address.txt", asciiize email),
                    (pys "phone_number.txt", asciiize phone) ] ++
                  (if notes.isEmpty then [] else [(pys "notes.txt", asciiize notes)])
                if review_files.isEmpty then ⟨0, [], ws, []⟩
                else
                  match writeLoop review_files with
                  | (rws, some fn) =>
                    ⟨1, [pys "Missing content for review information " ++ fn], ws, rws⟩
                  | (rws, none) => ⟨0, [], ws, rws⟩

/-! ## `extract_api_coverage` of `generate_portfolio_content.py` -/

/-- Python `s.split(sep)` for a one-character separator (keeps empty parts;
`"".split(sep) == [""]`). -/
def splitCharGo (sep : Char) (cur : PyStr) : PyStr → List PyStr
  | [] => [cur.reverse]
  | c :: t =>
    if c = sep then cur.reverse :: splitCharGo sep [] t
    else splitCharGo sep (c :: cur) t

/-- Python `s.split(sep)` for a one-character separator. -/
def splitChar (sep : Char) (s : PyStr) : List PyStr := splitCharGo sep [] s

/-- One row of the API-coverage table. -/
structure CoverageEntry where
  feature : PyStr
  status : PyStr
  details : PyStr
deriving DecidableEq, Repr

/-- The status classification of a status cell. -/
def statusOf (cell : PyStr) : PyStr :=
  if containsSub (pys "✅") cell then pys "complete"
  else if containsSub (pys "🟡") cell then pys "partial"
  else pys "pending"

/-- The per-line body of the `extract_api_coverage` table branch:
`line.split("|")[1:-1]`, cells stripped; rows with fewer than three cells or
an empty first cell produce nothing. -/
def coverageRow (line : PyStr) : Option CoverageEntry :=
  let parts := (((splitChar '|' line).drop 1).dropLast).map strip
  if parts.length < 3 then none
  else if (parts.headD []).isEmpty then none
  else
    some ⟨replaceStarStar (parts.headD []), statusOf (parts.getD 1 []),
      (parts.getD 2 []).take 80⟩

/-- The header marker recognised by `extract_api_coverage`. -/
def apiHeaderMarker : PyStr := pys "| API Feature Category"

/-- The line loop of `extract_api_coverage`, carrying the `in_table` flag.
A marker line always (re)enters table mode and is skipped; in table mode a
`|`-row without `---` is parsed, a `|`-row with `---` is skipped, and any
other line breaks the loop. -/
def coverageGo : Bool → List PyStr → List CoverageEntry
  | _, [] => []
  | in_table, line :: rest =>
    if containsSub apiHeaderMarker line then coverageGo true rest
    else if in_table then
      if (pys "|").isPrefixOf line && !containsSub (pys "---") line then
        match coverageRow line with
        | some e => e :: coverageGo true rest
        | none => coverageGo true rest
      else if !(pys "|").isPrefixOf line then []
      else coverageGo true rest
    else coverageGo false rest

/-- `extract_api_coverage` of `generate_portfolio_content.py`
(its `content.split("\n")` loop). -/
def extract_api_coverage (content : PyStr) : List CoverageEntry :=
  coverageGo false (splitChar '\n' content)

/-! ## `secret_scan.py` -/

/-- ASCII alphanumeric: the class `[A-Za-z0-9]`. -/
def isAlnumAscii (c : Char) : Bool := c.isAlpha || c.isDigit

/-- Match of `sk-[A-Za-z0-9]{24,}` anchored at the start of `s`
(length of the greedy match). -/
def matchOpenaiAt (s : PyStr) : Option Nat :=
  if (pys "sk-").isPrefixOf s then
    if ((s.drop 3).takeWhile isAlnumAscii).length < 24 then none
    else some (3 + ((s.drop 3).takeWhile isAlnumAscii).length)
  else none

/-- `(?i)` literal test: the next characters of `s`, ASCII-lowercased, spell
`lit` (the keywords of the generic pattern are ASCII). -/
def ciHasLit (lit : PyStr) (s : PyStr) : Bool :=
  (s.take lit.length).map Char.toLower = lit

/-- Tail `\s*[:=]\s*['\"][A-Za-z0-9_\-]{20,}` of the `generic_token` pattern,
anchored at the start of `s` (length of the greedy match).  Each `\s*` run is
maximal: the characters required next are not whitespace. -/
def matchGenTail (s : PyStr) : Option Nat :=
  let w1 := s.takeWhile pyIsSpace
  match s.drop w1.length with
  | c :: u =>
    if c = ':' || c = '=' then
      let w2 := u.takeWhile pyIsSpace
      match u.drop w2.length with
      | q :: v =>
        if q = '\'' || q = '"' then
          let run := v.takeWhile (fun x => x.isAlpha || x.isDigit || x = '_' || x = '-')
          if run.length < 20 then none
          else some (w1.length + 1 + w2.length + 1 + run.length)
        else none
      | [] => none
    else none
  | [] => none

/-- `(key|token)?` then the tail, in regex backtracking order: the `key`
alternative, then `token`, then the empty option. -/
def matchGroupTail (s : PyStr) : Option Nat :=
  (if ciHasLit (pys "key") s then (matchGenTail (s.drop 3)).map (3 + ·) else none) <|>
  (if ciHasLit (pys "token") s then (matchGenTail (s.drop 5)).map (5 + ·) else none) <|>
  matchGenTail s

/-- `[-_ ]?` then `(key|token)?` then the tail, in backtracking order:
delimiter consumed first, then not consumed. -/
def matchAfterKw (s : PyStr) : Option Nat :=
  (match s with
   | c :: t =>
     if c = '-' || c = '_' || c = ' ' then (matchGroupTail t).map (· + 1) else none
   | [] => none) <|>
  matchGroupTail s

/-- Match of the whole `generic_token` pattern
`(?i)(api|token|secret|bearer)[-_ ]?(key|token)?\s*[:=]\s*['\"][A-Za-z0-9_\-]{20,}`
anchored at the start of `s`, alternatives in pattern order. -/
def matchGenericAt (s : PyStr) : Option Nat :=
  (if ciHasLit (pys "api") s then (matchAfterKw (s.drop 3)).map (3 + ·) else none) <|>
  (if ciHasLit (pys "token") s then (matchAfterKw (s.drop 5)).map (5 + ·) else none) <|>
  (if ciHasLit (pys "secret") s then (matchAfterKw (s.drop 6)).map (6 + ·) else none) <|>
  (if ciHasLit (pys "bearer") s then (matchAfterKw (s.drop 6)).map (6 + ·) else none)

/-- `re.finditer`: scan positions left to right, taking each (leftmost,
greedy) match and resuming after it.  Structured with fuel (one unit per
consumed character) so the scan is a total structural recursion; `finditer`
supplies `s.length`, which the per-step progress makes sufficient. -/
def finditerGo (matchAt : PyStr → Option Nat) : Nat → Nat → PyStr → List (Nat × PyStr)
  | 0, _, _ => []
  | _ + 1, _, [] => []
  | fuel + 1, pos, c :: t =>
    match matchAt (c :: t) with
    | some len =>
      if len = 0 then finditerGo matchAt fuel (pos + 1) t
      else (pos, (c :: t).take len) :: finditerGo matchAt fuel (pos + len) ((c :: t).drop len)
    | none => finditerGo matchAt fuel (pos + 1) t

/-- `re.finditer` over a whole string: list of `(start_offset, matched_text)`. -/
def finditer (matchAt : PyStr → Option Nat) (s : PyStr) : List (Nat × PyStr) :=
  finditerGo matchAt s.length 0 s

/-- `contents.count("\n", 0, pos) + 1`: the 1-based line number of offset
`pos`. -/
def lineNumberAt (contents : PyStr) (pos : Nat) : Nat :=
  ((contents.take pos).filter (fun c => c = '\n')).length + 1

/-- The `SUSPICIOUS_PATTERNS` table of `secret_scan.py`. -/
def SUSPICIOUS_PATTERNS : List (PyStr × (PyStr → Option Nat)) :=
  [ (pys "openai_key", matchOpenaiAt),
    (pys "generic_token", matchGenericAt) ]

/-- `scan_file` of `secret_scan.py` on decoded contents: the
`(line_number, label, match.group())` findings, pattern by pattern.
(The `UnicodeDecodeError` branch is outside the model: the input is the
decoded text.) -/
def scan_file (contents : PyStr) : List (Nat × PyStr × PyStr) :=
  SUSPICIOUS_PATTERNS.flatMap
    (fun lp => (finditer lp.2 contents).map (fun m => (lineNumberAt contents m.1, lp.1, m.2)))

/-- `main` of `secret_scan.py` over the candidate files (the filesystem walk
`iter_candidate_files` is external; its result — path plus decoded contents —
is the input): the aggregated findings and the exit code. -/
def scanMain (files : List (PyStr × PyStr)) : Nat × List (PyStr × Nat × PyStr × PyStr) :=
  let findings := files.flatMap (fun f => (scan_file f.2).map (fun m => (f.1, m)))
  (if findings.isEmpty then 0 else 1, findings)

/-! ## Toolkit lemmas about the string primitives -/

theorem rstrip_eq_rdropWhile (s : PyStr) : rstrip s = List.rdropWhile pyIsSpace s := rfl

theorem lstrip_idem (s : PyStr) : lstrip (lstrip s) = lstrip s :=
  List.dropWhile_idempotent pyIsSpace s

theorem rstrip_idem (s : PyStr) : rstrip (rstrip s) = rstrip s := by
  simp [rstrip_eq_rdropWhile, List.rdropWhile_idempotent]

theorem lstrip_of_all_not (s : PyStr) (h : ∀ c ∈ s, pyIsSpace c = false) :
    lstrip s = s := by
  cases s with
  | nil => rfl
  | cons c t =>
    unfold lstrip
    rw [List.dropWhile_cons_of_neg]
    simp [h c (by simp)]

theorem rstrip_of_all_not (s : PyStr) (h : ∀ c ∈ s, pyIsSpace c = false) :
    rstrip s = s := by
  rw [rstrip_eq_rdropWhile, List.rdropWhile_eq_self_iff]
  intro hl
  simp [h _ (List.getLast_mem hl)]

theorem strip_of_all_not (s : PyStr) (h : ∀ c ∈ s, pyIsSpace c = false) :
    strip s = s := by
  unfold strip
  rw [rstrip_of_all_not s h, lstrip_of_all_not s h]

theorem joinWith_cons_cons (sep : PyStr) (l x : PyStr) (ls : List PyStr) :
    joinWith sep (l :: x :: ls) = l ++ sep ++ joinWith sep (x :: ls) := by
  simp [joinWith]

/-! ## C10: `split_name` -/

theorem pyWsSplitGo_mem (s : PyStr) : ∀ cur, (∀ c ∈ cur, pyIsSpace c = false) →
    ∀ p ∈ pyWsSplitGo cur s, p ≠ [] ∧ ∀ c ∈ p, pyIsSpace c = false := by
  induction s with
  | nil =>
    intro cur hcur p hp
    by_cases h : cur.isEmpty <;> simp [pyWsSplitGo, h] at hp
    rcases hp with rfl
    constructor
    · simpa [List.isEmpty_iff] using h
    · intro c hc
      exact hcur c (by simpa using hc)
  | cons c t ih =>
    intro cur hcur p hp
    by_cases hws : pyIsSpace c
    · by_cases hemp : cur.isEmpty
      · simp [pyWsSplitGo, hws, hemp] at hp
        exact ih [] (by simp) p hp
      · simp [pyWsSplitGo, hws, hemp] at hp
        rcases hp with rfl | hp
        · refine ⟨by simpa [List.isEmpty_iff] using hemp, ?_⟩
          intro d hd
          exact hcur d (by simpa using hd)
        · exact ih [] (by simp) p hp
    · simp [pyWsSplitGo, hws] at hp
      refine ih (c :: cur) ?_ p hp
      intro d hd
      rcases List.mem_cons.mp hd with rfl | hd
      · simpa using hws
      · exact hcur d hd

theorem pyWsSplit_mem (s : PyStr) :
    ∀ p ∈ pyWsSplit s, p ≠ [] ∧ ∀ c ∈ p, pyIsSpace c = false :=
  pyWsSplitGo_mem s [] (by simp)

theorem split_name_filter (s : PyStr) :
    (pyWsSplit s).filter (fun p => !(strip p).isEmpty) = pyWsSplit s := by
  rw [List.filter_eq_self]
  intro p hp
  obtain ⟨hne, hall⟩ := pyWsSplit_mem s p hp
  rw [strip_of_all_not p hall]
  simpa [List.isEmpty_iff] using hne

/-- C10: `split_name` is a whitespace-normalizing decomposition: with no
whitespace-separated parts it returns two empty strings, with one part it
returns that part and an empty last name, and with two or more parts the
first name is the first part while first name, a single space and the last
name rejoin to the parts joined by single spaces. -/
theorem split_name_spec (s : PyStr) :
    (pyWsSplit s = [] → split_name s = ([], [])) ∧
    (∀ p, pyWsSplit s = [p] → split_name s = (p, [])) ∧
    (∀ p q rest, pyWsSplit s = p :: q :: rest →
      (split_name s).1 = p ∧
      (split_name s).1 ++ ' ' :: (split_name s).2 = joinWith (pys " ") (pyWsSplit s)) := by
  refine ⟨?_, ?_, ?_⟩
  · intro h
    have key : (pyWsSplit s).filter (fun p => !(strip p).isEmpty) = [] := by
      rw [split_name_filter, h]
    simp [split_name, key]
  · intro p h
    have key : (pyWsSplit s).filter (fun p => !(strip p).isEmpty) = [p] := by
      rw [split_name_filter, h]
    simp [split_name, key]
  · intro p q rest h
    have key : (pyWsSplit s).filter (fun p => !(strip p).isEmpty) = p :: q :: rest := by
      rw [split_name_filter, h]
    have : split_name s = (p, joinWith (pys " ") (q :: rest)) := by
      simp [split_name, key]
    rw [this, h, joinWith_cons_cons]
    constructor
    · rfl
    · simp [pys]

/-- Concrete instantiations of `split_name_spec`, one per hypothesis shape. -/
theorem split_name_spec_witness :
    split_name (pys " \t ") = ([], []) ∧
    split_name (pys " Solo ") = (pys "Solo", []) ∧
    (split_name (pys "Ada B Lovelace")).1 = pys "Ada" ∧
    (split_name (pys "Ada B Lovelace")).1 ++ ' ' :: (split_name (pys "Ada B Lovelace")).2 =
      joinWith (pys " ") (pyWsSplit (pys "Ada B Lovelace")) := by
  refine ⟨(split_name_spec (pys " \t ")).1 (by decide),
    (split_name_spec (pys " Solo ")).2.1 (pys "Solo") (by decide),
    ((split_name_spec (pys "Ada B Lovelace")).2.2 (pys "Ada") (pys "B") [pys "Lovelace"]
      (by decide)).1,
    ((split_name_spec (pys "Ada B Lovelace")).2.2 (pys "Ada") (pys "B") [pys "Lovelace"]
      (by decide)).2⟩

/-! ## C2: duplicate section headings -/

/-- C2 counterexample: in the document `"## A\nx\n## A\ny"` the two level-2
headings truncate to the same label `A`, and `parse_sections` maps `A` to
the concatenation of both occurrences' lines, not to the later occurrence's
lines alone as the claim states. -/
theorem parse_sections_dup_counterexample :
    dLookup (parse_sections (pys "## A\nx\n## A\ny")) (pys "A") =
      some [pys "x", pys "y"] ∧
    some [pys "x", pys "y"] ≠ some [pys "y"] := by decide

theorem dModify_single (k : PyStr) (v : List PyStr) (f : List PyStr → List PyStr) :
    dModify [(k, v)] k f = [(k, f v)] := by simp [dModify]

theorem dSetdefault_single (k : PyStr) (v : List PyStr) (d : List PyStr) :
    dSetdefault [(k, v)] k d = [(k, v)] := by simp [dSetdefault, dLookup]

theorem parseSectionsGo_append_body (b : List PyStr) (lab : PyStr) (acc : List PyStr)
    (rest : List PyStr) (hb : ∀ l ∈ b, (pys "## ").isPrefixOf l = false) :
    parseSectionsGo [(lab, acc)] (some lab) (b ++ rest) =
      parseSectionsGo [(lab, acc ++ b)] (some lab) rest := by
  induction b generalizing acc with
  | nil => simp
  | cons l b' ih =>
    have hl : (pys "## ").isPrefixOf l = false := hb l (by simp)
    have hb' : ∀ x ∈ b', (pys "## ").isPrefixOf x = false := fun x hx => hb x (by simp [hx])
    simp only [List.cons_append, parseSectionsGo, hl, Bool.false_eq_true, if_false,
      dModify_single, List.append_eq]
    rw [ih (acc ++ [l]) hb']
    simp

/-- C2 amended: for a document whose lines are a level-2 heading, body lines,
a second level-2 heading truncating to the same label, and further body
lines, `parse_sections` maps the common label to the earlier occurrence's
lines *followed by* the later occurrence's lines — the two line lists are
concatenated (the `setdefault` keeps the first list and later lines are
appended to it), not replaced. -/
theorem parse_sections_dup_concat (text hl1 hl2 : PyStr) (b1 b2 : List PyStr)
    (hsplit : splitlines text = hl1 :: (b1 ++ hl2 :: b2))
    (hh1 : (pys "## ").isPrefixOf hl1 = true)
    (hh2 : (pys "## ").isPrefixOf hl2 = true)
    (hlab : headingLabel hl2 = headingLabel hl1)
    (h1 : ∀ l ∈ b1, (pys "## ").isPrefixOf l = false)
    (h2 : ∀ l ∈ b2, (pys "## ").isPrefixOf l = false) :
    parse_sections text = [(headingLabel hl1, b1 ++ b2)] := by
  unfold parse_sections
  rw [hsplit]
  simp only [parseSectionsGo, hh1, if_true]
  have start : dSetdefault ([] : List (PyStr × List PyStr)) (headingLabel hl1) [] =
      [(headingLabel hl1, [])] := by simp [dSetdefault, dLookup]
  rw [start, parseSectionsGo_append_body b1 (headingLabel hl1) [] (hl2 :: b2) h1]
  simp only [List.nil_append, parseSectionsGo, hh2, if_true, hlab, dSetdefault_single]
  rw [← List.append_nil b2, parseSectionsGo_append_body b2 (headingLabel hl1) b1 [] h2]
  simp [parseSectionsGo]

/-- Concrete instantiation of `parse_sections_dup_concat`. -/
theorem parse_sections_dup_concat_witness :
    parse_sections (pys "## A (one)\nx\n## A (two)\ny\nz") =
      [(headingLabel (pys "## A (one)"), [pys "x"] ++ [pys "y", pys "z"])] :=
  parse_sections_dup_concat (pys "## A (one)\nx\n## A (two)\ny\nz")
    (pys "## A (one)") (pys "## A (two)") [pys "x"] [pys "y", pys "z"]
    (by decide) (by decide) (by decide) (by decide) (by decide) (by decide)

/-! ## More toolkit: append behaviour of the strip operations -/

theorem isPrefixOf_eq_true (a b : PyStr) : a.isPrefixOf b = true ↔ a <+: b := by
  induction a generalizing b with
  | nil => simp [List.isPrefixOf]
  | cons c t ih =>
    cases b with
    | nil => simp [List.isPrefixOf]
    | cons d u => simp [List.isPrefixOf, ih, List.cons_prefix_cons]

theorem isPrefixOf_append_self (a b : PyStr) : a.isPrefixOf (a ++ b) = true := by
  induction a with
  | nil => simp [List.isPrefixOf]
  | cons c t ih => simp [List.isPrefixOf, ih]

theorem lstrip_append (a b : PyStr) :
    lstrip (a ++ b) = if lstrip a = [] then lstrip b else lstrip a ++ b := by
  unfold lstrip
  rw [List.dropWhile_append]
  by_cases h : (a.dropWhile pyIsSpace).isEmpty <;>
    simp [List.isEmpty_iff] at h <;> simp [h]

theorem rstrip_append (a b : PyStr) :
    rstrip (a ++ b) = if rstrip b = [] then rstrip a else a ++ rstrip b := by
  unfold rstrip
  rw [List.reverse_append, List.dropWhile_append]
  by_cases h : (b.reverse.dropWhile pyIsSpace).isEmpty
  · simp only [List.isEmpty_iff] at h
    simp [h]
  · simp only [List.isEmpty_iff] at h
    have : (b.reverse.dropWhile pyIsSpace).reverse ≠ [] := by simpa using h
    simp [h, this]

theorem rstrip_concat_pos (s : PyStr) (x : Char) (hx : pyIsSpace x = true) :
    rstrip (s ++ [x]) = rstrip s := by
  rw [rstrip_eq_rdropWhile, rstrip_eq_rdropWhile, List.rdropWhile_concat_pos _ _ _ hx]

theorem rstrip_concat_neg (s : PyStr) (x : Char) (hx : pyIsSpace x = false) :
    rstrip (s ++ [x]) = s ++ [x] := by
  rw [rstrip_eq_rdropWhile, List.rdropWhile_concat_neg]
  simp [hx]

theorem lstrip_rstrip_comm (s : PyStr) : lstrip (rstrip s) = rstrip (lstrip s) := by
  induction s using List.reverseRecOn with
  | nil => rfl
  | append_singleton s x ih =>
    by_cases hx : pyIsSpace x
    · rw [rstrip_concat_pos s x hx, ih, lstrip_append]
      by_cases h0 : lstrip s = []
      · have h1 : lstrip [x] = [] := by simp [lstrip, List.dropWhile_cons, hx]
        rw [if_pos h0, h0, h1]
      · rw [if_neg h0, rstrip_concat_pos _ x hx]
    · have hx' : pyIsSpace x = false := by simpa using hx
      rw [rstrip_concat_neg s x hx', lstrip_append]
      by_cases h0 : lstrip s = []
      · have h1 : lstrip [x] = [x] := by simp [lstrip, List.dropWhile_cons, hx']
        have h2 : rstrip [x] = [x] := by simpa using rstrip_concat_neg [] x hx'
        rw [if_pos h0, h1, h2]
      · rw [if_neg h0, rstrip_concat_neg _ x hx']

theorem strip_lstrip (s : PyStr) : strip (lstrip s) = strip s := by
  unfold strip
  rw [lstrip_rstrip_comm s, lstrip_rstrip_comm (lstrip s), lstrip_idem]

theorem strip_empty_of_lstrip_empty (s : PyStr) (h : lstrip s = []) : strip s = [] := by
  rw [← strip_lstrip, h]
  rfl

/-! ## Splitlines on boundary-free single lines -/

theorem splitlines_nb_cons (c : Char) (t : PyStr) (hc : isLineBoundary c = false) :
    splitlines (c :: t) =
      match splitlines t with
      | [] => [[c]]
      | l :: ls => (c :: l) :: ls := by
  rw [splitlines.eq_def]
  simp [hc]

theorem splitlines_single (s : PyStr) (h : ∀ c ∈ s, isLineBoundary c = false)
    (hne : s ≠ []) : splitlines s = [s] := by
  induction s with
  | nil => exact absurd rfl hne
  | cons c t ih =>
    rw [splitlines_nb_cons c t (h c (by simp))]
    cases ht : t with
    | nil => simp [ht, splitlines]
    | cons d u =>
      have : splitlines t = [t] := by
        refine ih (fun x hx => h x (by simp [hx])) ?_
        simp [ht]
      rw [ht] at this
      rw [this]

/-! ## C7: heading labels and parentheticals -/

/-- C7 counterexample: in the document `"## A(b)\nx"` the heading text
`A(b)` is followed by a parenthetical annotation, but the section label kept
by the splitter is the whole `A(b)`, not the claim's heading text truncated
at the parenthetical and trimmed (which would be `A`): the code only splits
at a space-parenthesis pair `" ("`. -/
theorem parse_sections_paren_counterexample :
    parse_sections (pys "## A(b)\nx") = [(pys "A(b)", [pys "x"])] ∧
    pys "A(b)" ≠ strip ((pys "A(b)").takeWhile (fun c => c ≠ '(')) := by decide

theorem containsSub_of_cons (sep c t) (h : containsSub sep (c :: t) = false) :
    containsSub sep t = false := by
  simp [containsSub] at h
  exact h.2

theorem containsSub_dropWhile (sep : PyStr) (p : Char → Bool) (s : PyStr)
    (h : containsSub sep s = false) : containsSub sep (s.dropWhile p) = false := by
  induction s with
  | nil => simpa using h
  | cons c t ih =>
    rw [List.dropWhile_cons]
    by_cases hp : p c
    · simp only [hp, if_true]
      exact ih (containsSub_of_cons sep c t h)
    · simpa [hp] using h

theorem takeBeforeSub_junction (a b : PyStr) (h : containsSub (pys " (") a = false) :
    takeBeforeSub (pys " (") (a ++ (pys " (" ++ b)) = a := by
  induction a with
  | nil =>
    show takeBeforeSub (pys " (") (' ' :: '(' :: b) = []
    rw [takeBeforeSub]
    rw [if_pos]
    exact isPrefixOf_append_self (pys " (") b
  | cons c t ih =>
    have hc : (pys " (").isPrefixOf (c :: t) = false := by
      simp [containsSub] at h
      exact h.1
    have ht : containsSub (pys " (") t = false := containsSub_of_cons _ c t h
    have hmain : (pys " (").isPrefixOf (c :: (t ++ (pys " (" ++ b))) = false := by
      cases t with
      | nil =>
        -- after `c` comes the separator itself: a prefix would need `(` there
        show (pys " (").isPrefixOf (c :: (pys " (" ++ b)) = false
        simp [pys, List.isPrefixOf]
      | cons d u =>
        by_contra hcon
        simp only [Bool.not_eq_false] at hcon
        have hcd : ' ' = c ∧ '(' = d := by
          simpa [pys, List.isPrefixOf] using hcon
        obtain ⟨h1, h2⟩ := hcd
        rw [← h1, ← h2] at hc
        simp [pys, List.isPrefixOf] at hc
    rw [List.cons_append, takeBeforeSub, if_neg (by simp [hmain]), ih ht]

theorem rstrip_spaceParen_append (post : PyStr) :
    rstrip (pys " (" ++ post) = pys " (" ++ rstrip post := by
  rw [rstrip_append]
  by_cases h : rstrip post = []
  · rw [if_pos h, h, List.append_nil]
    decide
  · rw [if_neg h]

/-- C7 amended: the splitter truncates a heading only at a space-parenthesis
pair.  For every level-2 heading line whose heading text is `pre` followed by
`" ("` and anything further — with no earlier `" ("` occurrence in `pre` and
`pre` not entirely whitespace — the produced section label is `pre` with the
`" ("` and everything after it removed, then whitespace-trimmed.  (A
parenthetical *not* preceded by a space is kept, per the counterexample.) -/
theorem parse_sections_paren_label (pre post : PyStr)
    (hno : containsSub (pys " (") pre = false)
    (hpre : strip pre ≠ [])
    (hb1 : ∀ c ∈ pre, isLineBoundary c = false)
    (hb2 : ∀ c ∈ post, isLineBoundary c = false) :
    parse_sections (pys "## " ++ (pre ++ (pys " (" ++ post))) = [(strip pre, [])] := by
  have hne : pys "## " ++ (pre ++ (pys " (" ++ post)) ≠ [] :=
    List.append_ne_nil_of_left_ne_nil (by decide) _
  have hnb : ∀ c ∈ pys "## " ++ (pre ++ (pys " (" ++ post)), isLineBoundary c = false := by
    intro c hc
    simp only [List.mem_append] at hc
    rcases hc with hc | hc | hc | hc
    · exact (by decide : ∀ c ∈ pys "## ", isLineBoundary c = false) c hc
    · exact hb1 c hc
    · exact (by decide : ∀ c ∈ pys " (", isLineBoundary c = false) c hc
    · exact hb2 c hc
  have hsingle := splitlines_single _ hnb hne
  have hhead : (pys "## ").isPrefixOf (pys "## " ++ (pre ++ (pys " (" ++ post))) = true :=
    isPrefixOf_append_self _ _
  have hlab : headingLabel (pys "## " ++ (pre ++ (pys " (" ++ post))) = strip pre := by
    unfold headingLabel
    rw [show (3 : Nat) = (pys "## ").length from by decide, List.drop_left]
    have hlpre : lstrip pre ≠ [] := by
      intro h0
      exact hpre (strip_empty_of_lstrip_empty pre h0)
    have hrs : rstrip (pre ++ (pys " (" ++ post)) = pre ++ (pys " (" ++ rstrip post) := by
      rw [rstrip_append, rstrip_spaceParen_append]
      rw [if_neg (by simp [pys])]
    have hls : lstrip (pre ++ (pys " (" ++ rstrip post)) =
        lstrip pre ++ (pys " (" ++ rstrip post) := by
      rw [lstrip_append, if_neg hlpre]
    unfold strip
    rw [hrs, hls, takeBeforeSub_junction (lstrip pre) (rstrip post)
      (containsSub_dropWhile _ _ _ hno)]
    have h2 := strip_lstrip pre
    unfold strip at h2
    exact h2
  unfold parse_sections
  rw [hsingle]
  simp only [parseSectionsGo, hhead, if_true, hlab]
  simp [dSetdefault, dLookup, parseSectionsGo]

/-- Concrete instantiation of `parse_sections_paren_label`. -/
theorem parse_sections_paren_label_witness :
    parse_sections (pys "## " ++ (pys " Head " ++ (pys " (" ++ pys "4000 chars max)"))) =
      [(strip (pys " Head "), [])] :=
  parse_sections_paren_label (pys " Head ") (pys "4000 chars max)")
    (by decide) (by decide) (by decide) (by decide)

/-! ## C4 and C8: labeled bullets -/

theorem matchLB_eval (X rest : PyStr) (hX : X ≠ []) (hXs : ∀ c ∈ X, c ≠ '*') :
    matchLB ('-' :: ' ' :: '*' :: '*' :: (X ++ '*' :: '*' :: rest)) =
      (if (rest.takeWhile pyIsSpace).isEmpty then none
       else
         let y := rest.dropWhile pyIsSpace
         let core := if y.getLast? = some '\n' then y.dropLast else y
         if core.any (fun c => c = '\n') then none else some (X, core)) := by
  have e1 : pyIsSpace ' ' = true := by decide
  have e2 : pyIsSpace '*' = false := by decide
  have hall : ∀ x ∈ X, (fun c => decide (c ≠ '*')) x = true := by
    intro x hx
    simpa using hXs x hx
  have hg1 : (X ++ '*' :: '*' :: rest).takeWhile (fun c => c ≠ '*') = X := by
    rw [List.takeWhile_append_of_pos hall]
    simp [List.takeWhile_cons]
  have hg2 : (X ++ '*' :: '*' :: rest).dropWhile (fun c => c ≠ '*') = '*' :: '*' :: rest := by
    rw [List.dropWhile_append_of_pos hall]
    simp [List.dropWhile_cons]
  simp only [matchLB, List.takeWhile_cons, List.dropWhile_cons, e1, e2, if_true, if_false,
    Bool.false_eq_true, List.isEmpty_cons, hg1, hg2]
  simp [List.isEmpty_iff, hX]

theorem rstrip_ne_nil_of_strip (s : PyStr) (h : strip s ≠ []) : rstrip s ≠ [] := by
  intro h0
  unfold strip at h
  rw [h0] at h
  exact h rfl

theorem strip_bullet_line (X tail : PyStr) (htail : rstrip tail = tail) :
    strip (pys "- **" ++ (X ++ (pys "**" ++ tail))) =
      pys "- **" ++ (X ++ (pys "**" ++ tail)) := by
  unfold strip
  rw [rstrip_append (pys "- **") _, rstrip_append X _, rstrip_append (pys "**") tail, htail]
  by_cases h0 : tail = []
  · rw [if_pos h0, h0, List.append_nil]
    rw [show rstrip (pys "**") = pys "**" from by decide]
    rw [if_neg (show ¬(pys "**" = ([] : PyStr)) from by decide)]
    rw [if_neg (show ¬(X ++ pys "**" = ([] : PyStr)) from by simp [pys])]
    rw [lstrip_append]
    rw [show lstrip (pys "- **") = pys "- **" from by decide]
    rw [if_neg (show ¬(pys "- **" = ([] : PyStr)) from by decide)]
  · rw [if_neg h0]
    rw [if_neg (show ¬(pys "**" ++ tail = ([] : PyStr)) from by simp [pys])]
    rw [if_neg (show ¬(X ++ (pys "**" ++ tail) = ([] : PyStr)) from by simp [pys])]
    rw [lstrip_append]
    rw [show lstrip (pys "- **") = pys "- **" from by decide]
    rw [if_neg (show ¬(pys "- **" = ([] : PyStr)) from by decide)]

/-- C4 counterexample: the labeled-bullet line `- **Label**`, whose label has
no body after the closing markers, yields no field at all (the pattern
requires whitespace and a body after `**`), not a field mapped to the empty
string as the claim states. -/
theorem parse_labeled_bullets_nobody_counterexample :
    parse_labeled_bullets [pys "- **Label**"] = [] ∧
    dLookup (parse_labeled_bullets [pys "- **Label**"]) (pys "Label") ≠ some [] := by
  decide

/-- C4 amended: a labeled-bullet line of shape `- **Label**` with nothing
after the closing markers yields an *absent* field: the bullet pattern
demands at least one whitespace character and a body after the closing
markers, so field extraction of such a line produces the empty mapping. -/
theorem parse_labeled_bullets_nobody (L : PyStr) (hne : L ≠ [])
    (hstar : ∀ c ∈ L, c ≠ '*') :
    parse_labeled_bullets [pys "- **" ++ (L ++ pys "**")] = [] := by
  have hstrip : strip (pys "- **" ++ (L ++ pys "**")) =
      pys "- **" ++ (L ++ pys "**") := by
    have h := strip_bullet_line L [] (by decide)
    simpa using h
  have hshape : pys "- **" ++ (L ++ pys "**") =
      '-' :: ' ' :: '*' :: '*' :: (L ++ '*' :: '*' :: []) := by
    simp [pys]
  have hmatch : matchLB (pys "- **" ++ (L ++ pys "**")) = none := by
    rw [hshape, matchLB_eval L [] hne hstar]
    simp
  simp [parse_labeled_bullets, hstrip, hmatch]

/-- Concrete instantiation of `parse_labeled_bullets_nobody`. -/
theorem parse_labeled_bullets_nobody_witness :
    parse_labeled_bullets [pys "- **" ++ (pys "Label" ++ pys "**")] = [] :=
  parse_labeled_bullets_nobody (pys "Label") (by decide) (by decide)

theorem rstrip_strip (s : PyStr) : rstrip (strip s) = strip s := by
  show rstrip (lstrip (rstrip s)) = lstrip (rstrip s)
  rw [← lstrip_rstrip_comm (rstrip s), rstrip_idem]

theorem strip_idem (s : PyStr) : strip (strip s) = strip s := by
  show lstrip (rstrip (strip s)) = strip s
  rw [rstrip_strip]
  show lstrip (lstrip (rstrip s)) = lstrip (rstrip s)
  rw [lstrip_idem]

theorem strip_last_not_ws (s : PyStr) (c : Char) (h : (strip s).getLast? = some c) :
    pyIsSpace c = false := by
  have hne : strip s ≠ [] := by
    intro h0
    rw [h0] at h
    cases h
  have h2 : List.rdropWhile pyIsSpace (strip s) ≠ [] := by
    rw [← rstrip_eq_rdropWhile, rstrip_strip]
    exact hne
  have h3 := List.rdropWhile_last_not (p := pyIsSpace) (l := strip s) h2
  have h4 : List.rdropWhile pyIsSpace (strip s) = strip s := by
    rw [← rstrip_eq_rdropWhile, rstrip_strip]
  have h5 : (strip s).getLast? = some ((List.rdropWhile pyIsSpace (strip s)).getLast h2) := by
    conv_lhs => rw [← h4]
    exact List.getLast?_eq_getLast _ h2
  rw [h5] at h
  have : c = (List.rdropWhile pyIsSpace (strip s)).getLast h2 := by
    injection h.symm
  rw [this]
  simpa using h3

theorem mem_of_mem_rstrip {c : Char} {s : PyStr} (h : c ∈ rstrip s) : c ∈ s := by
  unfold rstrip at h
  rw [List.mem_reverse] at h
  have := (List.dropWhile_suffix pyIsSpace (l := s.reverse)).subset h
  simpa using this

theorem mem_of_mem_strip {c : Char} {s : PyStr} (h : c ∈ strip s) : c ∈ s := by
  unfold strip lstrip at h
  exact mem_of_mem_rstrip ((List.dropWhile_suffix pyIsSpace).subset h)

theorem strip_bullet_line2 (X Y : PyStr) (hY : rstrip Y ≠ []) :
    strip (pys "- **" ++ (X ++ (pys "** " ++ Y))) =
      pys "- **" ++ (X ++ (pys "** " ++ rstrip Y)) := by
  unfold strip
  rw [rstrip_append (pys "- **") _, rstrip_append X _, rstrip_append (pys "** ") Y]
  rw [if_neg hY]
  rw [if_neg (show ¬(pys "** " ++ rstrip Y = ([] : PyStr)) from by simp [pys])]
  rw [if_neg (show ¬(X ++ (pys "** " ++ rstrip Y) = ([] : PyStr)) from by simp [pys])]
  rw [lstrip_append, show lstrip (pys "- **") = pys "- **" from by decide,
    if_neg (show ¬(pys "- **" = ([] : PyStr)) from by decide)]

theorem matchLB_bullet (X Y : PyStr) (hX : X ≠ []) (hXs : ∀ c ∈ X, c ≠ '*')
    (hYn : ∀ c ∈ Y, c ≠ '\n') (hY : strip Y ≠ []) :
    matchLB (strip (pys "- **" ++ (X ++ (pys "** " ++ Y)))) = some (X, strip Y) := by
  have hrY : rstrip Y ≠ [] := rstrip_ne_nil_of_strip Y hY
  rw [strip_bullet_line2 X Y hrY]
  have hshape : pys "- **" ++ (X ++ (pys "** " ++ rstrip Y)) =
      '-' :: ' ' :: '*' :: '*' :: (X ++ '*' :: '*' :: (' ' :: rstrip Y)) := by
    simp [pys]
  rw [hshape, matchLB_eval X (' ' :: rstrip Y) hX hXs]
  have e1 : pyIsSpace ' ' = true := by decide
  have hy : (' ' :: rstrip Y).dropWhile pyIsSpace = strip Y := by
    rw [List.dropWhile_cons, if_pos (by simp [e1])]
    rfl
  simp only [List.takeWhile_cons, e1, if_true, List.isEmpty_cons, hy]
  have hlast : ¬((strip Y).getLast? = some '\n') := by
    intro hcon
    have := strip_last_not_ws Y '\n' hcon
    simp [pyIsSpace] at this
  rw [if_neg (by simp), if_neg hlast]
  have hany : (strip Y).any (fun c => c = '\n') = false := by
    rw [List.any_eq_false]
    intro c hc
    simpa using hYn c (mem_of_mem_strip hc)
  rw [hany]
  simp

/-- C8 counterexample: for the labeled-bullet line `- **Foo:** bar` (of form
`- **X** Y` with `X = "Foo:"`) extraction yields the field `Foo`, not the
whitespace-trimmed `Foo:` the claim describes: trailing colons are also
stripped from the label. -/
theorem parse_labeled_bullets_colon_counterexample :
    parse_labeled_bullets [pys "- **Foo:** bar"] = [(pys "Foo", pys "bar")] ∧
    dLookup (parse_labeled_bullets [pys "- **Foo:** bar"]) (pys "Foo:") = none := by
  decide

/-- C8 amended: for every labeled-bullet line of form `- **X** Y`, extraction
yields the field whose label is `X` trimmed of surrounding whitespace *and of
trailing colons*, mapped to `Y` trimmed of surrounding whitespace; and when
the same label occurs on two lines of one section the later occurrence's
value overwrites the earlier one. -/
theorem parse_labeled_bullets_spec (X Y1 Y2 : PyStr)
    (hX : X ≠ []) (hXs : ∀ c ∈ X, c ≠ '*')
    (hY1n : ∀ c ∈ Y1, c ≠ '\n') (hY1 : strip Y1 ≠ [])
    (hY2n : ∀ c ∈ Y2, c ≠ '\n') (hY2 : strip Y2 ≠ []) :
    parse_labeled_bullets [pys "- **" ++ (X ++ (pys "** " ++ Y1))] =
      [(rstripColons (strip X), strip Y1)] ∧
    parse_labeled_bullets
        [pys "- **" ++ (X ++ (pys "** " ++ Y1)), pys "- **" ++ (X ++ (pys "** " ++ Y2))] =
      [(rstripColons (strip X), strip Y2)] := by
  have h1 := matchLB_bullet X Y1 hX hXs hY1n hY1
  have h2 := matchLB_bullet X Y2 hX hXs hY2n hY2
  constructor
  · simp [parse_labeled_bullets, h1, dSet, strip_idem]
  · simp [parse_labeled_bullets, h1, h2, dSet, strip_idem]

/-- Concrete instantiation of `parse_labeled_bullets_spec`. -/
theorem parse_labeled_bullets_spec_witness :
    parse_labeled_bullets [pys "- **" ++ (pys " Name: " ++ (pys "** " ++ pys " Foo "))] =
      [(rstripColons (strip (pys " Name: ")), strip (pys " Foo "))] ∧
    parse_labeled_bullets
        [pys "- **" ++ (pys " Name: " ++ (pys "** " ++ pys " Foo ")),
         pys "- **" ++ (pys " Name: " ++ (pys "** " ++ pys "Bar"))] =
      [(rstripColons (strip (pys " Name: ")), strip (pys "Bar"))] :=
  parse_labeled_bullets_spec (pys " Name: ") (pys " Foo ") (pys "Bar")
    (by decide) (by decide) (by decide) (by decide) (by decide) (by decide)

/-! ## C6: single-block table extraction -/

theorem splitCharGo_word (sep : Char) (w : PyStr) (hw : ∀ ch ∈ w, ch ≠ sep) :
    ∀ cur rest, splitCharGo sep cur (w ++ rest) = splitCharGo sep (w.reverse ++ cur) rest := by
  induction w with
  | nil => intro cur rest; simp
  | cons c t ih =>
    intro cur rest
    have hc : c ≠ sep := hw c (by simp)
    have ht : ∀ ch ∈ t, ch ≠ sep := fun ch hch => hw ch (by simp [hch])
    show splitCharGo sep cur (c :: (t ++ rest)) = splitCharGo sep ((c :: t).reverse ++ cur) rest
    rw [show splitCharGo sep cur (c :: (t ++ rest)) =
          splitCharGo sep (c :: cur) (t ++ rest) from by simp [splitCharGo, hc]]
    rw [ih ht (c :: cur) rest]
    simp

theorem splitChar_joinNL (ls : List PyStr) (hne : ls ≠ [])
    (hnl : ∀ l ∈ ls, ∀ ch ∈ l, ch ≠ '\n') :
    splitChar '\n' (joinNL ls) = ls := by
  induction ls with
  | nil => exact absurd rfl hne
  | cons l ls ih =>
    have hl : ∀ ch ∈ l, ch ≠ '\n' := hnl l (by simp)
    cases ls with
    | nil =>
      show splitCharGo '\n' [] (joinNL [l]) = [l]
      have hj : joinNL [l] = l ++ [] := by simp [joinNL, joinWith]
      rw [hj, splitCharGo_word '\n' l hl [] []]
      simp [splitCharGo]
    | cons l2 ls2 =>
      have hjoin : joinNL (l :: l2 :: ls2) = l ++ ('\n' :: joinNL (l2 :: ls2)) := by
        simp [joinNL, joinWith_cons_cons]
      show splitCharGo '\n' [] (joinNL (l :: l2 :: ls2)) = l :: l2 :: ls2
      rw [hjoin, splitCharGo_word '\n' l hl [] _]
      rw [show splitCharGo '\n' (l.reverse ++ []) ('\n' :: joinNL (l2 :: ls2)) =
            (l.reverse ++ []).reverse :: splitCharGo '\n' [] (joinNL (l2 :: ls2)) from by
          simp [splitCharGo]]
      have ih2 := ih (by simp) (fun x hx => hnl x (by simp [hx]))
      rw [show splitCharGo '\n' [] (joinNL (l2 :: ls2)) =
            splitChar '\n' (joinNL (l2 :: ls2)) from rfl, ih2]
      simp

/-- The rows of one contiguous table block: each `|`-initial row without a
`---` separator marker, parsed as a coverage row. -/
def tableRows (b : List PyStr) : List CoverageEntry :=
  b.filterMap
    (fun l => if (pys "|").isPrefixOf l && !containsSub (pys "---") l then coverageRow l
              else none)

theorem coverageGo_skip_pre (a : List PyStr) (rest : List PyStr)
    (ha : ∀ l ∈ a, containsSub apiHeaderMarker l = false) :
    coverageGo false (a ++ rest) = coverageGo false rest := by
  induction a with
  | nil => rfl
  | cons l t ih =>
    have hl := ha l (by simp)
    simp only [List.cons_append, coverageGo, hl, Bool.false_eq_true, if_false]
    exact ih (fun x hx => ha x (by simp [hx]))

theorem coverageGo_block (b : List PyStr) (rest : List PyStr)
    (hb : ∀ l ∈ b, (pys "|").isPrefixOf l = true ∧ containsSub apiHeaderMarker l = false) :
    coverageGo true (b ++ rest) = tableRows b ++ coverageGo true rest := by
  induction b with
  | nil => simp [tableRows]
  | cons l t ih =>
    obtain ⟨hp, hm⟩ := hb l (by simp)
    have ht : ∀ x ∈ t, (pys "|").isPrefixOf x = true ∧ containsSub apiHeaderMarker x = false :=
      fun x hx => hb x (by simp [hx])
    by_cases hd : containsSub (pys "---") l
    · have e1 : coverageGo true ((l :: t) ++ rest) = coverageGo true (t ++ rest) := by
        simp [coverageGo, hm, hp, hd]
      have e2 : tableRows (l :: t) = tableRows t := by
        simp [tableRows, List.filterMap_cons, hp, hd]
      rw [e1, e2, ih ht]
    · have hd2 : containsSub (pys "---") l = false := by simpa using hd
      have e1 : coverageGo true ((l :: t) ++ rest) =
          (coverageRow l).toList ++ coverageGo true (t ++ rest) := by
        cases hcr : coverageRow l with
        | none => simp [coverageGo, hm, hp, hd2, hcr]
        | some e => simp [coverageGo, hm, hp, hd2, hcr]
      have hpP : pys "|" <+: l := (isPrefixOf_eq_true _ _).mp hp
      have e2 : tableRows (l :: t) = (coverageRow l).toList ++ tableRows t := by
        cases hcr : coverageRow l with
        | none => simp [tableRows, List.filterMap_cons, hp, hpP, hd2, hcr]
        | some e => simp [tableRows, List.filterMap_cons, hp, hpP, hd2, hcr]
      rw [e1, e2, ih ht, List.append_assoc]

theorem coverageGo_break (nb : PyStr) (c : List PyStr)
    (hnb1 : (pys "|").isPrefixOf nb = false)
    (hnb2 : containsSub apiHeaderMarker nb = false) :
    coverageGo true (nb :: c) = [] := by
  simp [coverageGo, hnb1, hnb2]

/-- C6: table extraction consumes a single contiguous block.  For a document
whose lines are a marker-free prefix, the header line, a block of `|`-rows, a
line that does not start with `|` (a blank line included), and arbitrary
further lines, `extract_api_coverage` returns exactly the rows of the block:
the loop stops at the first non-`|` line after the header and any later
`|`-rows are not extracted. -/
theorem extract_api_coverage_single_block (a b c : List PyStr) (h nb : PyStr)
    (ha : ∀ l ∈ a, containsSub apiHeaderMarker l = false)
    (hh : containsSub apiHeaderMarker h = true)
    (hb : ∀ l ∈ b, (pys "|").isPrefixOf l = true ∧ containsSub apiHeaderMarker l = false)
    (hnb1 : (pys "|").isPrefixOf nb = false)
    (hnb2 : containsSub apiHeaderMarker nb = false)
    (hnl : ∀ l ∈ a ++ h :: (b ++ nb :: c), ∀ ch ∈ l, ch ≠ '\n') :
    extract_api_coverage (joinNL (a ++ h :: (b ++ nb :: c))) = tableRows b := by
  unfold extract_api_coverage
  rw [splitChar_joinNL _ (by simp) hnl]
  rw [coverageGo_skip_pre a _ ha]
  have hstep : coverageGo false (h :: (b ++ nb :: c)) = coverageGo true (b ++ nb :: c) := by
    simp [coverageGo, hh]
  rw [hstep, coverageGo_block b _ hb, coverageGo_break nb c hnb1 hnb2, List.append_nil]

/-- Concrete instantiation of `extract_api_coverage_single_block`: the table
is interrupted by a blank line and a later `|`-row is not extracted. -/
theorem extract_api_coverage_single_block_witness :
    extract_api_coverage
      (joinNL ([pys "intro"] ++ pys "| API Feature Category | Status | Details |" ::
        ([pys "| --- | --- | --- |", pys "| **Chat** | ✅ | good |"] ++ [] ::
          [pys "| Late | ✅ | nope |"]))) =
    tableRows [pys "| --- | --- | --- |", pys "| **Chat** | ✅ | good |"] :=
  extract_api_coverage_single_block [pys "intro"]
    [pys "| --- | --- | --- |", pys "| **Chat** | ✅ | good |"]
    [pys "| Late | ✅ | nope |"]
    (pys "| API Feature Category | Status | Details |") []
    (by decide) (by decide) (by decide) (by decide) (by decide) (by decide)

/-! ## C5 and C1: validation order of the metadata pipeline -/

/-- `require` raises for this key: the key is absent or its value is blank. -/
def requireFails (m : List (PyStr × PyStr)) (k : PyStr) : Bool :=
  match requireE m k with
  | .error _ => true
  | .ok _ => false

theorem requireFails_true (m : List (PyStr × PyStr)) (k : PyStr)
    (h : requireFails m k = true) : requireE m k = .error k := by
  unfold requireFails at h
  unfold requireE at h ⊢
  cases hd : dLookup m k with
  | none => rfl
  | some v =>
    rw [hd] at h
    by_cases hs : (strip v).isEmpty
    · simp [hs]
    · simp [hs] at h

theorem requireFails_false (m : List (PyStr × PyStr)) (k : PyStr)
    (h : requireFails m k = false) : requireE m k = .ok (strip ((dLookup m k).getD [])) := by
  unfold requireFails at h
  unfold requireE at h ⊢
  cases hd : dLookup m k with
  | none => rw [hd] at h; simp at h
  | some v =>
    rw [hd] at h
    by_cases hs : (strip v).isEmpty
    · simp [hs] at h
    · simp [hs]

theorem require4_error_of_find (m : List (PyStr × PyStr)) (k1 k2 k3 k4 f : PyStr)
    (h : [k1, k2, k3, k4].find? (requireFails m) = some f) :
    require4 m k1 k2 k3 k4 = .error f := by
  cases h1 : requireFails m k1 with
  | true =>
    simp only [List.find?, h1] at h
    injection h with h
    subst h
    simp only [require4, requireFails_true m k1 h1]
    rfl
  | false =>
    have hv1 := requireFails_false m k1 h1
    simp only [List.find?, h1] at h
    cases h2 : requireFails m k2 with
    | true =>
      simp only [h2] at h
      injection h with h
      subst h
      simp only [require4, hv1, requireFails_true m k2 h2]
      rfl
    | false =>
      have hv2 := requireFails_false m k2 h2
      simp only [h2] at h
      cases h3 : requireFails m k3 with
      | true =>
        simp only [h3] at h
        injection h with h
        subst h
        simp only [require4, hv1, hv2, requireFails_true m k3 h3]
        rfl
      | false =>
        have hv3 := requireFails_false m k3 h3
        simp only [h3] at h
        cases h4 : requireFails m k4 with
        | true =>
          simp only [h4] at h
          injection h with h
          subst h
          simp only [require4, hv1, hv2, hv3, requireFails_true m k4 h4]
          rfl
        | false =>
          simp only [h4] at h
          cases h

theorem require3_error_of_find (m : List (PyStr × PyStr)) (k1 k2 k3 f : PyStr)
    (h : [k1, k2, k3].find? (requireFails m) = some f) :
    require3 m k1 k2 k3 = .error f := by
  cases h1 : requireFails m k1 with
  | true =>
    simp only [List.find?, h1] at h
    injection h with h
    subst h
    simp only [require3, requireFails_true m k1 h1]
    rfl
  | false =>
    have hv1 := requireFails_false m k1 h1
    simp only [List.find?, h1] at h
    cases h2 : requireFails m k2 with
    | true =>
      simp only [h2] at h
      injection h with h
      subst h
      simp only [require3, hv1, requireFails_true m k2 h2]
      rfl
    | false =>
      have hv2 := requireFails_false m k2 h2
      simp only [h2] at h
      cases h3 : requireFails m k3 with
      | true =>
        simp only [h3] at h
        injection h with h
        subst h
        simp only [require3, hv1, hv2, requireFails_true m k3 h3]
        rfl
      | false =>
        simp only [h3] at h
        cases h

/-- The missing required sections of a document, in required order. -/
def missingSections (text : PyStr) : List PyStr :=
  requiredSections.filter (fun s => (dLookup (parse_sections text) s).isNone)

/-- The release-notes key: the first section label starting with
`"What's New in "`. -/
def releaseKeyOf (text : PyStr) : Option PyStr :=
  ((parse_sections text).map Prod.fst).find? (fun k => whatsNewMarker.isPrefixOf k)

/-- The parsed `Quick Reference` labeled bullets of a document. -/
def quickRefOf (text : PyStr) : List (PyStr × PyStr) :=
  parse_labeled_bullets ((dLookup (parse_sections text) (pys "Quick Reference")).getD [])

/-- The parsed `URLs` labeled bullets of a document. -/
def urlsOf (text : PyStr) : List (PyStr × PyStr) :=
  parse_labeled_bullets ((dLookup (parse_sections text) (pys "URLs")).getD [])

/-- The required `Quick Reference` fields, in validation order. -/
def qrFieldNames : List PyStr :=
  [pys "Name", pys "Subtitle", pys "Primary Category", pys "Secondary Category"]

/-- The required `URLs` fields, in validation order. -/
def urlFieldNames : List PyStr :=
  [pys "Marketing URL", pys "Support URL", pys "Privacy Policy URL"]

theorem require4_ok_of_all (m : List (PyStr × PyStr)) (k1 k2 k3 k4 : PyStr)
    (h1 : requireFails m k1 = false) (h2 : requireFails m k2 = false)
    (h3 : requireFails m k3 = false) (h4 : requireFails m k4 = false) :
    require4 m k1 k2 k3 k4 = .ok (strip ((dLookup m k1).getD []),
      strip ((dLookup m k2).getD []), strip ((dLookup m k3).getD []),
      strip ((dLookup m k4).getD [])) := by
  simp only [require4, requireFails_false m k1 h1, requireFails_false m k2 h2,
    requireFails_false m k3 h3, requireFails_false m k4 h4]
  rfl

/-- C5: metadata-pipeline validation reports missing sections batched and
missing fields fail-fast.  (a) When required sections are missing, the run
exits 1 with a single message listing every missing section name at once and
writes nothing.  (b) When all sections and the release-notes section are
present but a required `Quick Reference` field is missing, the run exits 1
naming exactly the first missing field and writes nothing.  (c) The same
fail-fast behaviour holds for the `URLs` fields once the `Quick Reference`
fields pass. -/
theorem mainRun_validation_order (text : PyStr) :
    (missingSections text ≠ [] →
      mainRun text =
        ⟨1, [pys "Missing sections: " ++ joinWith (pys ", ") (missingSections text)],
          [], []⟩) ∧
    (∀ rk f, missingSections text = [] → releaseKeyOf text = some rk →
      qrFieldNames.find? (requireFails (quickRefOf text)) = some f →
      mainRun text = ⟨1, [pys "Missing Quick Reference field: " ++ f], [], []⟩) ∧
    (∀ rk f, missingSections text = [] → releaseKeyOf text = some rk →
      qrFieldNames.find? (requireFails (quickRefOf text)) = none →
      urlFieldNames.find? (requireFails (urlsOf text)) = some f →
      mainRun text = ⟨1, [pys "Missing URL field: " ++ f], [], []⟩) := by
  refine ⟨?_, ?_, ?_⟩
  · intro hm
    have hie : (missingSections text).isEmpty = false := by
      cases hmm : missingSections text with
      | nil => exact absurd hmm hm
      | cons a l => rfl
    unfold missingSections at hie hm ⊢
    simp only [mainRun, hie, Bool.not_false, if_true]
  · intro rk f hm hrel hfind
    have hie : (requiredSections.filter
        (fun s => (dLookup (parse_sections text) s).isNone)).isEmpty = true := by
      unfold missingSections at hm
      rw [hm]
      rfl
    have herr := require4_error_of_find (quickRefOf text) (pys "Name") (pys "Subtitle")
      (pys "Primary Category") (pys "Secondary Category") f hfind
    unfold quickRefOf at herr
    unfold releaseKeyOf at hrel
    simp only [mainRun, hie, Bool.not_true, Bool.false_eq_true, if_false, hrel, herr]
  · intro rk f hm hrel hqr hfind
    have hie : (requiredSections.filter
        (fun s => (dLookup (parse_sections text) s).isNone)).isEmpty = true := by
      unfold missingSections at hm
      rw [hm]
      rfl
    have hqr4 : ∀ k ∈ qrFieldNames, requireFails (quickRefOf text) k = false := by
      intro k hk
      have := List.find?_eq_none.mp hqr k hk
      simpa using this
    have hok := require4_ok_of_all (quickRefOf text) (pys "Name") (pys "Subtitle")
      (pys "Primary Category") (pys "Secondary Category")
      (hqr4 _ (by simp [qrFieldNames])) (hqr4 _ (by simp [qrFieldNames]))
      (hqr4 _ (by simp [qrFieldNames])) (hqr4 _ (by simp [qrFieldNames]))
    have herr := require3_error_of_find (urlsOf text) (pys "Marketing URL")
      (pys "Support URL") (pys "Privacy Policy URL") f hfind
    unfold quickRefOf at hok
    unfold urlsOf at herr
    unfold releaseKeyOf at hrel
    simp only [mainRun, hie, Bool.not_true, Bool.false_eq_true, if_false, hrel, hok, herr]

/-- Validation documents for the concrete instantiation of
`mainRun_validation_order`. -/
def docMissingSections : PyStr := pys "## Quick Reference\n- **Name** Foo"

/-- A document whose `Quick Reference` section lacks the `Subtitle` field. -/
def docMissingField : PyStr := pys
  "## Quick Reference\n- **Name** Foo\n## Promotional Text\np\n## Full Description\nd\n## Keywords\nk\n## URLs\nu\n## What's New in 1.0\nn"

/-- A document whose `URLs` section lacks the `Support URL` field. -/
def docMissingUrl : PyStr := pys
  "## Quick Reference\n- **Name** Foo\n- **Subtitle** Bar\n- **Primary Category** C1\n- **Secondary Category** C2\n## Promotional Text\np\n## Full Description\nd\n## Keywords\nk\n## URLs\n- **Marketing URL** https://m.x\n## What's New in 1.0\nn"

/-- Concrete instantiations of `mainRun_validation_order`, one per part. -/
theorem mainRun_validation_order_witness :
    mainRun docMissingSections =
      ⟨1, [pys "Missing sections: " ++ joinWith (pys ", ")
        (missingSections docMissingSections)], [], []⟩ ∧
    mainRun docMissingField =
      ⟨1, [pys "Missing Quick Reference field: " ++ pys "Subtitle"], [], []⟩ ∧
    mainRun docMissingUrl =
      ⟨1, [pys "Missing URL field: " ++ pys "Support URL"], [], []⟩ :=
  ⟨(mainRun_validation_order docMissingSections).1 (by decide),
   (mainRun_validation_order docMissingField).2.1 (pys "What's New in 1.0")
     (pys "Subtitle") (by decide) (by decide) (by decide),
   (mainRun_validation_order docMissingUrl).2.2 (pys "What's New in 1.0")
     (pys "Support URL") (by decide) (by decide) (by decide) (by decide)⟩

/-- A document that passes every validation stage but whose required
`Promotional Text` section contains only a blank line, so its normalized
content is empty. -/
def docPartialWrite : PyStr := pys
  "## Quick Reference\n- **Name** Foo\n- **Subtitle** Bar\n- **Primary Category** Cat1\n- **Secondary Category** Cat2\n## Promotional Text\n\n## Full Description\nDesc\n## Keywords\nk1,k2\n## URLs\n- **Marketing URL** https://m.example\n- **Support URL** https://s.example\n- **Privacy Policy URL** https://p.example\n## What's New in 1.0.0\nNotes\n"

/-- C1 counterexample: on `docPartialWrite` the metadata pipeline aborts with
exit code 1 (empty content for `promotional_text.txt`) *after* `name.txt`
and `subtitle.txt` have been written: the non-emptiness check runs per file
inside the emission loop, so an aborting run can leave output files behind. -/
theorem mainRun_partial_write_counterexample :
    (mainRun docPartialWrite).exitCode = 1 ∧
    (mainRun docPartialWrite).metaWrites =
      [(pys "name.txt", pys "Foo\n"), (pys "subtitle.txt", pys "Bar\n")] ∧
    (mainRun docPartialWrite).metaWrites ≠ [] := by decide

/-- C1 amended: section, release-notes and required-field validation all
complete before any emission begins — a run that aborts in any of those
stages with exit code 1 has written no metadata output file — but the
non-emptiness of each output's content is checked per file *during* the
emission loop, so a run aborting there (exit code 1) keeps the files
already written, as the counterexample shows. -/
theorem mainRun_validation_aborts_write_nothing (text : PyStr)
    (h : missingSections text ≠ [] ∨ releaseKeyOf text = none ∨
      (∃ f, qrFieldNames.find? (requireFails (quickRefOf text)) = some f) ∨
      (∃ f, urlFieldNames.find? (requireFails (urlsOf text)) = some f)) :
    (mainRun text).exitCode = 1 ∧ (mainRun text).metaWrites = [] ∧
      (mainRun text).reviewWrites = [] := by
  by_cases hie : (requiredSections.filter
      (fun s => (dLookup (parse_sections text) s).isNone)).isEmpty
  case neg =>
    have hie2 : (requiredSections.filter
        (fun s => (dLookup (parse_sections text) s).isNone)).isEmpty = false := by
      simpa using hie
    simp only [mainRun, hie2, Bool.not_false, if_true]
    exact ⟨trivial, trivial, trivial⟩
  case pos =>
    have hm : missingSections text = [] := by
      unfold missingSections
      simpa [List.isEmpty_iff] using hie
    cases hrel : releaseKeyOf text with
    | none =>
      unfold releaseKeyOf at hrel
      simp only [mainRun, hie, Bool.not_true, Bool.false_eq_true, if_false, hrel]
      exact ⟨trivial, trivial, trivial⟩
    | some rk =>
      cases hqr : qrFieldNames.find? (requireFails (quickRefOf text)) with
      | some f =>
        have herr := require4_error_of_find (quickRefOf text) (pys "Name") (pys "Subtitle")
          (pys "Primary Category") (pys "Secondary Category") f hqr
        unfold quickRefOf at herr
        unfold releaseKeyOf at hrel
        simp only [mainRun, hie, Bool.not_true, Bool.false_eq_true, if_false, hrel, herr]
        exact ⟨trivial, trivial, trivial⟩
      | none =>
        cases hurl : urlFieldNames.find? (requireFails (urlsOf text)) with
        | some f =>
          have hqr4 : ∀ k ∈ qrFieldNames, requireFails (quickRefOf text) k = false := by
            intro k hk
            have := List.find?_eq_none.mp hqr k hk
            simpa using this
          have hok := require4_ok_of_all (quickRefOf text) (pys "Name") (pys "Subtitle")
            (pys "Primary Category") (pys "Secondary Category")
            (hqr4 _ (by simp [qrFieldNames])) (hqr4 _ (by simp [qrFieldNames]))
            (hqr4 _ (by simp [qrFieldNames])) (hqr4 _ (by simp [qrFieldNames]))
          have herr := require3_error_of_find (urlsOf text) (pys "Marketing URL")
            (pys "Support URL") (pys "Privacy Policy URL") f hurl
          unfold quickRefOf at hok
          unfold urlsOf at herr
          unfold releaseKeyOf at hrel
          simp only [mainRun, hie, Bool.not_true, Bool.false_eq_true, if_false, hrel, hok,
            herr]
          exact ⟨trivial, trivial, trivial⟩
        | none =>
          rcases h with h | h | h | h
          · exact absurd hm h
          · rw [hrel] at h
            cases h
          · obtain ⟨f, hf⟩ := h
            rw [hqr] at hf
            cases hf
          · obtain ⟨f, hf⟩ := h
            rw [hurl] at hf
            cases hf

/-- Concrete instantiation of `mainRun_validation_aborts_write_nothing`. -/
theorem mainRun_validation_aborts_write_nothing_witness :
    (mainRun docMissingSections).exitCode = 1 ∧
      (mainRun docMissingSections).metaWrites = [] ∧
      (mainRun docMissingSections).reviewWrites = [] :=
  mainRun_validation_aborts_write_nothing docMissingSections (Or.inl (by decide))

/-! ## C9: the secret scanner -/

/-- The claim's notion of an occurrence: at offset `i` the file contents read
the literal `sk-` followed by at least 24 alphanumeric characters. -/
def occAt (contents : PyStr) (i : Nat) : Prop :=
  (pys "sk-").isPrefixOf (contents.drop i) = true ∧
    24 ≤ ((contents.drop (i + 3)).takeWhile isAlnumAscii).length

instance occAt_dec (contents : PyStr) (i : Nat) : Decidable (occAt contents i) :=
  inferInstanceAs (Decidable (_ ∧ _))

theorem occAt_lt_length (c : PyStr) (j : Nat) (h : occAt c j) : j < c.length := by
  obtain ⟨h1, h2⟩ := h
  by_contra hge
  push_neg at hge
  rw [List.drop_eq_nil_of_le hge] at h1
  simp [pys, List.isPrefixOf] at h1

theorem drop_drop_pyn (c : PyStr) (i : Nat) : (c.drop i).drop 3 = c.drop (i + 3) := by
  rw [List.drop_drop, Nat.add_comm]

theorem matchOpenaiAt_some_of_occ (c : PyStr) (i : Nat) (h : occAt c i) :
    matchOpenaiAt (c.drop i) =
      some (3 + ((c.drop (i + 3)).takeWhile isAlnumAscii).length) := by
  obtain ⟨h1, h2⟩ := h
  unfold matchOpenaiAt
  rw [h1, if_pos rfl, drop_drop_pyn]
  rw [if_neg (by omega)]

theorem occ_of_matchOpenaiAt_some (c : PyStr) (i : Nat) (len : Nat)
    (h : matchOpenaiAt (c.drop i) = some len) : occAt c i := by
  unfold matchOpenaiAt at h
  by_cases h1 : (pys "sk-").isPrefixOf (c.drop i) = true
  · rw [h1, if_pos rfl] at h
    by_cases h2 : (((c.drop i).drop 3).takeWhile isAlnumAscii).length < 24
    · rw [if_pos h2] at h
      cases h
    · refine ⟨h1, ?_⟩
      rw [← drop_drop_pyn]
      omega
  · rw [Bool.not_eq_true] at h1
    rw [h1] at h
    simp at h

theorem matchOpenaiAt_len_pos (s : PyStr) (len : Nat) (h : matchOpenaiAt s = some len) :
    27 ≤ len := by
  unfold matchOpenaiAt at h
  by_cases h1 : (pys "sk-").isPrefixOf s = true
  · rw [h1, if_pos rfl] at h
    by_cases h2 : ((s.drop 3).takeWhile isAlnumAscii).length < 24
    · rw [if_pos h2] at h
      cases h
    · rw [if_neg h2] at h
      injection h with h
      omega
  · rw [Bool.not_eq_true] at h1
    rw [h1] at h
    simp at h

theorem finditerGo_none (s : PyStr) : ∀ fuel pos, s.length ≤ fuel →
    (∀ j, matchOpenaiAt (s.drop j) = none) →
    finditerGo matchOpenaiAt fuel pos s = [] := by
  induction s with
  | nil =>
    intro fuel pos _ _
    cases fuel <;> rfl
  | cons c t ih =>
    intro fuel pos hf hn
    cases fuel with
    | zero => simp at hf
    | succ fuel =>
      have h0 := hn 0
      simp only [List.drop_zero] at h0
      simp only [finditerGo, h0]
      exact ih fuel (pos + 1) (by simpa using hf) (fun j => hn (j + 1))

theorem finditerGo_unique (s : PyStr) : ∀ fuel pos i len, s.length ≤ fuel →
    matchOpenaiAt (s.drop i) = some len →
    (∀ j, matchOpenaiAt (s.drop j) = none ∨ j = i) →
    finditerGo matchOpenaiAt fuel pos s = [(pos + i, (s.drop i).take len)] := by
  induction s with
  | nil =>
    intro fuel pos i len _ hm _
    rw [List.drop_nil] at hm
    cases hm
  | cons c t ih =>
    intro fuel pos i len hf hm huniq
    cases fuel with
    | zero => simp at hf
    | succ fuel =>
      cases i with
      | zero =>
        simp only [List.drop_zero] at hm
        have hlen := matchOpenaiAt_len_pos _ _ hm
        simp only [finditerGo, hm]
        rw [if_neg (by omega)]
        have hrest : finditerGo matchOpenaiAt fuel (pos + len) ((c :: t).drop len) = [] := by
          refine finditerGo_none _ fuel (pos + len) ?_ ?_
          · have : (c :: t).length ≤ fuel + 1 := hf
            have h2 : ((c :: t).drop len).length = (c :: t).length - len := by
              simp
            omega
          · intro j
            rw [List.drop_drop]
            rcases huniq (len + j) with hnone | heq
            · exact hnone
            · omega
        rw [hrest]
        simp
      | succ i =>
        have h0 : matchOpenaiAt ((c :: t).drop 0) = none := by
          rcases huniq 0 with hnone | heq
          · exact hnone
          · omega
        simp only [List.drop_zero] at h0
        simp only [finditerGo, h0]
        have hm2 : matchOpenaiAt (t.drop i) = some len := hm
        have huniq2 : ∀ j, matchOpenaiAt (t.drop j) = none ∨ j = i := by
          intro j
          rcases huniq (j + 1) with hnone | heq
          · left
            simpa using hnone
          · right
            omega
        have := ih fuel (pos + 1) i len (by simpa using hf) hm2 huniq2
        rw [this]
        have : pos + 1 + i = pos + (i + 1) := by omega
        rw [this]
        rfl

theorem scan_file_eq (c : PyStr) :
    scan_file c =
      (finditer matchOpenaiAt c).map
        (fun m => (lineNumberAt c m.1, pys "openai_key", m.2)) ++
      (finditer matchGenericAt c).map
        (fun m => (lineNumberAt c m.1, pys "generic_token", m.2)) := by
  simp [scan_file, SUSPICIOUS_PATTERNS]

theorem filter_generic_none (c : PyStr) (xs : List (Nat × PyStr)) :
    (xs.map (fun m => (lineNumberAt c m.1, pys "generic_token", m.2))).filter
      (fun t => t.2.1 = pys "openai_key") = [] := by
  induction xs with
  | nil => rfl
  | cons x t ih =>
    simp only [List.map_cons, List.filter_cons]
    rw [if_neg (by simp [pys])]
    exact ih

/-- C9: on contents with exactly one occurrence of the literal `sk-`
followed by 24 or more alphanumeric characters, the scanner reports exactly
one finding labeled `openai_key`, carrying the 1-based line number of the
occurrence and the greedy match, and the scan over any candidate-file set
containing such a file exits 1; over a file set with no pattern matches it
exits 0. -/
theorem secret_scan_spec :
    (∀ c i0, occAt c i0 → (∀ j, occAt c j → j = i0) →
      ((scan_file c).filter (fun t => t.2.1 = pys "openai_key") =
        [(lineNumberAt c i0, pys "openai_key",
          (c.drop i0).take (3 + ((c.drop (i0 + 3)).takeWhile isAlnumAscii).length))] ∧
       ∀ files path, (path, c) ∈ files → (scanMain files).1 = 1)) ∧
    (∀ files, (∀ pc ∈ files, scan_file pc.2 = []) → (scanMain files).1 = 0) := by
  constructor
  · intro c i0 hocc huniq
    have hm := matchOpenaiAt_some_of_occ c i0 hocc
    have huniq2 : ∀ j, matchOpenaiAt (c.drop j) = none ∨ j = i0 := by
      intro j
      cases hcase : matchOpenaiAt (c.drop j) with
      | none => exact Or.inl rfl
      | some len => exact Or.inr (huniq j (occ_of_matchOpenaiAt_some c j len hcase))
    have hfind : finditer matchOpenaiAt c =
        [(i0, (c.drop i0).take (3 + ((c.drop (i0 + 3)).takeWhile isAlnumAscii).length))] := by
      have := finditerGo_unique c c.length 0 i0
        (3 + ((c.drop (i0 + 3)).takeWhile isAlnumAscii).length) le_rfl hm huniq2
      simpa [finditer] using this
    have hscan : (scan_file c).filter (fun t => t.2.1 = pys "openai_key") =
        [(lineNumberAt c i0, pys "openai_key",
          (c.drop i0).take (3 + ((c.drop (i0 + 3)).takeWhile isAlnumAscii).length))] := by
      rw [scan_file_eq, List.filter_append, hfind, filter_generic_none]
      simp
    refine ⟨hscan, ?_⟩
    intro files path hmem
    have hne : scan_file c ≠ [] := by
      rw [scan_file_eq, hfind]
      simp
    unfold scanMain
    have hfmem : ∃ x, x ∈ files.flatMap (fun f => (scan_file f.2).map (fun m => (f.1, m))) := by
      cases hsc : scan_file c with
      | nil => exact absurd hsc hne
      | cons y ys =>
        refine ⟨(path, y), ?_⟩
        rw [List.mem_flatMap]
        exact ⟨(path, c), hmem, by rw [hsc]; simp⟩
    obtain ⟨x, hx⟩ := hfmem
    have : (files.flatMap (fun f => (scan_file f.2).map (fun m => (f.1, m)))).isEmpty
        = false := by
      cases hl : files.flatMap (fun f => (scan_file f.2).map (fun m => (f.1, m))) with
      | nil => rw [hl] at hx; cases hx
      | cons a l => rfl
    simp only [this, Bool.false_eq_true, if_false]
  · intro files hall
    unfold scanMain
    have : files.flatMap (fun f => (scan_file f.2).map (fun m => (f.1, m))) = [] := by
      refine List.flatMap_eq_nil_iff.mpr ?_
      intro f hf
      rw [hall f hf]
      rfl
    simp [this]

/-- Concrete instantiation of `secret_scan_spec`: a key on line 2 of one file,
and a clean file set. -/
theorem secret_scan_spec_witness :
    ((scan_file (pys "line1\nkey = sk-abcdefghijklmnopqrstuvwx done\n")).filter
      (fun t => t.2.1 = pys "openai_key") =
      [(lineNumberAt (pys "line1\nkey = sk-abcdefghijklmnopqrstuvwx done\n") 12,
        pys "openai_key",
        ((pys "line1\nkey = sk-abcdefghijklmnopqrstuvwx done\n").drop 12).take
          (3 + (((pys "line1\nkey = sk-abcdefghijklmnopqrstuvwx done\n").drop 15).takeWhile
            isAlnumAscii).length))] ∧
     (scanMain [(pys "a.py", pys "line1\nkey = sk-abcdefghijklmnopqrstuvwx done\n")]).1 = 1) ∧
    (scanMain [(pys "b.py", pys "clean\n")]).1 = 0 := by
  have hb : ∀ j < (pys "line1\nkey = sk-abcdefghijklmnopqrstuvwx done\n").length,
      occAt (pys "line1\nkey = sk-abcdefghijklmnopqrstuvwx done\n") j → j = 12 := by decide
  have h := (secret_scan_spec.1 (pys "line1\nkey = sk-abcdefghijklmnopqrstuvwx done\n") 12
    (by decide)
    (fun j hj => hb j (occAt_lt_length _ j hj) hj))
  exact ⟨⟨h.1, h.2 [(pys "a.py", pys "line1\nkey = sk-abcdefghijklmnopqrstuvwx done\n")]
    (pys "a.py") (by simp)⟩,
    secret_scan_spec.2 [(pys "b.py", pys "clean\n")] (by decide)⟩

/-! ## C3: idempotence of the normalizers

`normalize_plain` / `normalize_markdown` consume `text.splitlines()`; applying
a normalizer to its own output therefore reads it back through `splitlines`. -/

/-- `normalize_plain` applied to a document string. -/
def normalizePlainStr (s : PyStr) : PyStr := normalize_plain (splitlines s)

/-- `normalize_markdown` applied to a document string. -/
def normalizeMarkdownStr (s : PyStr) : PyStr := normalize_markdown (splitlines s)

theorem mem_replace1_cases {c a : Char} {b x : PyStr} (h : c ∈ replace1 a b x) :
    c ∈ x ∨ c ∈ b := by
  induction x with
  | nil => cases h
  | cons d t ih =>
    unfold replace1 at h
    rw [List.flatMap_cons] at h
    rcases List.mem_append.mp h with h1 | h2
    · by_cases hda : d = a
      · rw [if_pos hda] at h1
        exact Or.inr h1
      · rw [if_neg hda] at h1
        rcases List.mem_singleton.mp h1 with rfl
        exact Or.inl (by simp)
    · rcases ih h2 with h3 | h3
      · exact Or.inl (by simp [h3])
      · exact Or.inr h3

theorem notMem_replace1_self {a : Char} {b : PyStr} (hab : a ∉ b) (x : PyStr) :
    a ∉ replace1 a b x := by
  induction x with
  | nil => intro h; cases h
  | cons d t ih =>
    intro h
    unfold replace1 at h
    rw [List.flatMap_cons] at h
    rcases List.mem_append.mp h with h1 | h2
    · by_cases hda : d = a
      · rw [if_pos hda] at h1
        exact hab h1
      · rw [if_neg hda] at h1
        exact hda (List.mem_singleton.mp h1).symm
    · exact ih h2

theorem notMem_replace1 {c a : Char} {b x : PyStr} (hx : c ∉ x) (hb : c ∉ b) :
    c ∉ replace1 a b x := by
  intro h
  rcases mem_replace1_cases h with h1 | h1
  · exact hx h1
  · exact hb h1

theorem replace1_eq_self {a : Char} {b x : PyStr} (hx : a ∉ x) : replace1 a b x = x := by
  induction x with
  | nil => rfl
  | cons d t ih =>
    unfold replace1
    rw [List.flatMap_cons]
    have hda : d ≠ a := fun h => hx (by simp [h])
    rw [if_neg hda]
    have := ih (fun h => hx (by simp [h]))
    unfold replace1 at this
    rw [this]
    rfl

/-- The replacement fold step of `asciiize`. -/
def replStep (acc : PyStr) (p : Char × PyStr) : PyStr := replace1 p.1 p.2 acc

theorem asciiize_eq_foldl (x : PyStr) : asciiize x = ASCII_MAP.foldl replStep x := rfl

theorem foldl_replace_notMem (l : List (Char × PyStr)) (a : Char) :
    ∀ x : PyStr, (∀ pr ∈ l, a ∉ pr.2) →
    (a ∉ x ∨ ∃ pr ∈ l, pr.1 = a) → a ∉ l.foldl replStep x := by
  induction l with
  | nil =>
    intro x _ hx
    rcases hx with hx | ⟨pr, hpr, _⟩
    · exact hx
    · cases hpr
  | cons pr rest ih =>
    intro x hl hx
    rw [List.foldl_cons]
    have hrest : ∀ q ∈ rest, a ∉ q.2 := fun q hq => hl q (by simp [hq])
    by_cases hpa : pr.1 = a
    · refine ih (replStep x pr) hrest (Or.inl ?_)
      rw [← hpa]
      exact notMem_replace1_self (by rw [hpa]; exact hl pr (by simp)) x
    · rcases hx with hx | ⟨q, hq, hqa⟩
      · refine ih (replStep x pr) hrest (Or.inl ?_)
        exact notMem_replace1 hx (hl pr (by simp))
      · rcases List.mem_cons.mp hq with rfl | hq2
        · exact absurd hqa hpa
        · exact ih (replStep x pr) hrest (Or.inr ⟨q, hq2, hqa⟩)

theorem asciiize_notMem_src (x : PyStr) : ∀ pr ∈ ASCII_MAP, pr.1 ∉ asciiize x := by
  intro pr hpr
  rw [asciiize_eq_foldl]
  have hall : ∀ pr ∈ ASCII_MAP, ∀ q ∈ ASCII_MAP, pr.1 ∉ q.2 := by decide
  exact foldl_replace_notMem ASCII_MAP pr.1 x (fun q hq => hall pr hpr q hq)
    (Or.inr ⟨pr, hpr, rfl⟩)

theorem foldl_replace_eq_self (l : List (Char × PyStr)) :
    ∀ x : PyStr, (∀ pr ∈ l, pr.1 ∉ x) → l.foldl replStep x = x := by
  induction l with
  | nil => intro x _; rfl
  | cons pr rest ih =>
    intro x h
    rw [List.foldl_cons]
    have h1 : replStep x pr = x := replace1_eq_self (h pr (by simp))
    rw [h1]
    exact ih x (fun q hq => h q (by simp [hq]))

theorem asciiize_eq_self (x : PyStr) (h : ∀ pr ∈ ASCII_MAP, pr.1 ∉ x) : asciiize x = x := by
  rw [asciiize_eq_foldl]
  exact foldl_replace_eq_self ASCII_MAP x h

theorem asciiize_asciiize (x : PyStr) : asciiize (asciiize x) = asciiize x :=
  asciiize_eq_self (asciiize x) (asciiize_notMem_src x)

theorem mem_foldl_replace (l : List (Char × PyStr)) :
    ∀ (x : PyStr) (c : Char), c ∈ l.foldl replStep x → c ∈ x ∨ ∃ pr ∈ l, c ∈ pr.2 := by
  induction l with
  | nil => intro x c h; exact Or.inl h
  | cons pr rest ih =>
    intro x c h
    rw [List.foldl_cons] at h
    rcases ih (replStep x pr) c h with h1 | ⟨q, hq, hcq⟩
    · rcases mem_replace1_cases h1 with h2 | h2
      · exact Or.inl h2
      · exact Or.inr ⟨pr, by simp, h2⟩
    · exact Or.inr ⟨q, by simp [hq], hcq⟩

theorem mem_asciiize_cases {c : Char} {x : PyStr} (h : c ∈ asciiize x) :
    c ∈ x ∨ ∃ pr ∈ ASCII_MAP, c ∈ pr.2 := by
  rw [asciiize_eq_foldl] at h
  exact mem_foldl_replace ASCII_MAP x c h

theorem rstrip_length_le (x : PyStr) : (rstrip x).length ≤ x.length := by
  unfold rstrip
  have := (List.dropWhile_suffix pyIsSpace (l := x.reverse)).sublist.length_le
  simpa using this

theorem last_not_ws_of_rstrip_inv (x : PyStr) (d : Char)
    (h : rstrip (x ++ [d]) = x ++ [d]) : pyIsSpace d = false := by
  by_contra hws
  rw [Bool.not_eq_false] at hws
  rw [rstrip_concat_pos x d hws] at h
  have h1 := rstrip_length_le x
  rw [h] at h1
  simp at h1

theorem replace1_append (a : Char) (b x y : PyStr) :
    replace1 a b (x ++ y) = replace1 a b x ++ replace1 a b y := by
  unfold replace1
  rw [List.flatMap_append]

theorem rstrip_inv_replace1 (a : Char) (b : PyStr) (hb : b ≠ [])
    (hcase : pyIsSpace a = true ∨ ∀ c, b.getLast? = some c → pyIsSpace c = false) :
    ∀ x : PyStr, rstrip x = x → rstrip (replace1 a b x) = replace1 a b x := by
  intro x
  induction x using List.reverseRecOn with
  | nil => intro _; rfl
  | append_singleton x d _ih =>
    intro hx
    have hd : pyIsSpace d = false := last_not_ws_of_rstrip_inv x d hx
    have hsplit : replace1 a b (x ++ [d]) =
        replace1 a b x ++ (if d = a then b else [d]) := by
      rw [replace1_append]
      unfold replace1
      simp
    by_cases hda : d = a
    · rcases hcase with hws | hlast
      · rw [hda, hws] at hd
        cases hd
      · rw [hsplit, if_pos hda]
        obtain ⟨b2, bl, hb2⟩ : ∃ b2 bl, b = b2 ++ [bl] :=
          ⟨b.dropLast, b.getLast hb, (List.dropLast_append_getLast hb).symm⟩
        have hbl : pyIsSpace bl = false := by
          refine hlast bl ?_
          rw [hb2]
          simp
        rw [hb2, ← List.append_assoc]
        exact rstrip_concat_neg _ bl hbl
    · rw [hsplit, if_neg hda]
      exact rstrip_concat_neg _ d hd

theorem foldl_replace_rstrip_inv (l : List (Char × PyStr))
    (hl : ∀ pr ∈ l, pr.2 ≠ [] ∧
      (pyIsSpace pr.1 = true ∨ ∀ c, pr.2.getLast? = some c → pyIsSpace c = false)) :
    ∀ x : PyStr, rstrip x = x → rstrip (l.foldl replStep x) = l.foldl replStep x := by
  induction l with
  | nil => intro x hx; exact hx
  | cons pr rest ih =>
    intro x hx
    rw [List.foldl_cons]
    refine ih (fun q hq => hl q (by simp [hq])) (replStep x pr) ?_
    obtain ⟨h1, h2⟩ := hl pr (by simp)
    exact rstrip_inv_replace1 pr.1 pr.2 h1 h2 x hx

theorem rstrip_inv_asciiize (x : PyStr) (hx : rstrip x = x) :
    rstrip (asciiize x) = asciiize x := by
  rw [asciiize_eq_foldl]
  refine foldl_replace_rstrip_inv ASCII_MAP ?_ x hx
  decide

theorem rstrip_inv_lstrip (x : PyStr) (hx : rstrip x = x) :
    rstrip (lstrip x) = lstrip x := by
  rw [← lstrip_rstrip_comm, hx]

theorem lstrip_ne_nil_of_rstrip_inv (x : PyStr) (hx : rstrip x = x) (hne : x ≠ []) :
    lstrip x ≠ [] := by
  intro h0
  have hall : ∀ c ∈ x, pyIsSpace c = true := by
    have := List.dropWhile_eq_nil_iff.mp h0
    simpa [lstrip] using this
  have : rstrip x = [] := by
    rw [rstrip_eq_rdropWhile]
    rw [List.rdropWhile_eq_nil_iff]
    exact hall
  rw [hx] at this
  exact hne this

/-! Line structure of normalizer output: `splitlines` produces
boundary-free lines, and is a left inverse of the newline join on
boundary-free line lists whose last line is nonempty. -/

theorem splitlines_lb_cons (c : Char) (t : PyStr) (hc : isLineBoundary c = true)
    (h : ∀ r : List Char, c = '\r' → t = '\n' :: r → False) :
    splitlines (c :: t) = [] :: splitlines t := by
  rw [splitlines.eq_def]
  simp only [hc, if_true]

theorem splitlines_noBoundary (s : PyStr) :
    ∀ l ∈ splitlines s, ∀ c ∈ l, isLineBoundary c = false := by
  induction s using splitlines.induct with
  | case1 => intro l hl; cases hl
  | case2 r _ ih =>
    intro l hl
    have : splitlines ('\r' :: '\n' :: r) = [] :: splitlines r := rfl
    rw [this] at hl
    rcases List.mem_cons.mp hl with rfl | hl2
    · intro c hc; cases hc
    · exact ih l hl2
  | case3 c hc r2 hne ih =>
    intro l hl
    rw [splitlines_lb_cons c r2 hc (fun r h1 h2 => hne r h1 h2)] at hl
    rcases List.mem_cons.mp hl with rfl | hl2
    · intro c hc; cases hc
    · exact ih l hl2
  | case4 c rest hc h0 ih =>
    intro l hl
    rw [splitlines_nb_cons c rest (by simpa using hc), h0] at hl
    rcases List.mem_cons.mp hl with rfl | hl2
    · intro x hx
      rcases List.mem_singleton.mp hx with rfl
      simpa using hc
    · cases hl2
  | case5 c rest hc l0 ls0 hrest ih =>
    intro l hl
    rw [splitlines_nb_cons c rest (by simpa using hc), hrest] at hl
    rcases List.mem_cons.mp hl with rfl | hl2
    · intro x hx
      rcases List.mem_cons.mp hx with rfl | hx2
      · simpa using hc
      · exact ih l0 (by rw [hrest]; simp) x hx2
    · exact ih l (by rw [hrest]; exact List.mem_cons_of_mem _ hl2)

theorem splitlines_append_nl (h b : PyStr) (hh : ∀ c ∈ h, isLineBoundary c = false) :
    splitlines (h ++ '\n' :: b) = h :: splitlines b := by
  induction h with
  | nil =>
    rw [List.nil_append]
    exact splitlines_lb_cons '\n' b rfl
      (fun r h1 _ => absurd h1 (by decide))
  | cons c t ih =>
    rw [List.cons_append, splitlines_nb_cons c _ (hh c (by simp))]
    rw [ih (fun x hx => hh x (by simp [hx]))]

theorem joinNL_cons (l : PyStr) (t : List PyStr) (h : t ≠ []) :
    joinNL (l :: t) = l ++ '\n' :: joinNL t := by
  cases t with
  | nil => exact absurd rfl h
  | cons m r =>
    show (l ++ ['\n']) ++ joinWith ['\n'] (m :: r) = _
    simp [joinNL]

theorem splitlines_joinNL (segs : List PyStr)
    (hnb : ∀ l ∈ segs, ∀ c ∈ l, isLineBoundary c = false)
    (hlast : ∀ l, segs.getLast? = some l → l ≠ []) :
    splitlines (joinNL segs) = segs := by
  induction segs with
  | nil => rfl
  | cons h t ih =>
    cases t with
    | nil =>
      have hne : h ≠ [] := hlast h (by simp)
      show splitlines h = [h]
      exact splitlines_single h (hnb h (by simp)) hne
    | cons h2 t2 =>
      rw [joinNL_cons h (h2 :: t2) (by simp)]
      rw [splitlines_append_nl h _ (hnb h (by simp))]
      rw [ih (fun l hl => hnb l (by simp [hl]))
        (fun l hl => hlast l (by rw [List.getLast?_cons_cons]; exact hl))]

/-! The outer `strip` of a newline-join of right-stripped lines: it removes
the trailing empty lines, the leading empty lines, and left-strips the
first remaining line. -/

/-- Drop the trailing run of empty lines. -/
def dropTrailEmpty (ls : List PyStr) : List PyStr :=
  (ls.reverse.dropWhile (fun l => l.isEmpty)).reverse

/-- Left-strip the first line, keep the rest. -/
def fixHead : List PyStr → List PyStr
  | [] => []
  | h :: t => lstrip h :: t

/-- The line list surviving the outer `strip` of a newline-join of
right-stripped lines. -/
def postJoin (ls : List PyStr) : List PyStr :=
  fixHead ((dropTrailEmpty ls).dropWhile (fun l => l.isEmpty))

theorem dropTrailEmpty_concat_nil (ls : List PyStr) :
    dropTrailEmpty (ls ++ [[]]) = dropTrailEmpty ls := by
  unfold dropTrailEmpty
  simp

theorem dropTrailEmpty_concat_ne (ls : List PyStr) (d : PyStr) (hd : d ≠ []) :
    dropTrailEmpty (ls ++ [d]) = ls ++ [d] := by
  unfold dropTrailEmpty
  rw [List.reverse_append]
  have : (d.isEmpty) = false := by simpa using hd
  simp [List.dropWhile_cons, this]

theorem joinNL_concat (ls : List PyStr) (d : PyStr) (h : ls ≠ []) :
    joinNL (ls ++ [d]) = joinNL ls ++ '\n' :: d := by
  induction ls with
  | nil => exact absurd rfl h
  | cons l t ih =>
    cases t with
    | nil =>
      show joinNL [l, d] = joinNL [l] ++ '\n' :: d
      show (l ++ ['\n']) ++ d = l ++ '\n' :: d
      simp
    | cons m r =>
      rw [List.cons_append, joinNL_cons l ((m :: r) ++ [d]) (by simp),
          joinNL_cons l (m :: r) (by simp), ih (by simp)]
      simp

theorem rstrip_joinNL (ls : List PyStr) (hr : ∀ l ∈ ls, rstrip l = l) :
    rstrip (joinNL ls) = joinNL (dropTrailEmpty ls) := by
  induction ls using List.reverseRecOn with
  | nil => rfl
  | append_singleton ls d ih =>
    have ih2 := ih (fun l hl => hr l (by simp [hl]))
    by_cases hd : d = []
    · subst hd
      rw [dropTrailEmpty_concat_nil]
      cases hls : ls with
      | nil => rfl
      | cons l0 t0 =>
        rw [← hls, joinNL_concat ls [] (by rw [hls]; simp)]
        have : joinNL ls ++ '\n' :: [] = (joinNL ls ++ ['\n']) := by simp
        rw [this, rstrip_concat_pos _ '\n' (by decide)]
        exact ih2
    · have hrd : rstrip d = d := hr d (by simp)
      rw [dropTrailEmpty_concat_ne ls d hd]
      cases hls : ls with
      | nil =>
        show rstrip (joinNL [d]) = joinNL [d]
        show rstrip d = d
        exact hrd
      | cons l0 t0 =>
        rw [← hls, joinNL_concat ls d (by rw [hls]; simp)]
        have hnd : rstrip ('\n' :: d) = '\n' :: d := by
          have : ('\n' :: d) = ['\n'] ++ d := rfl
          rw [this, rstrip_append, if_neg (by rw [hrd]; exact hd), hrd]
        rw [rstrip_append, if_neg (by rw [hnd]; simp), hnd]

theorem lstrip_joinNL (ls : List PyStr) (hr : ∀ l ∈ ls, rstrip l = l) :
    lstrip (joinNL ls) = joinNL (fixHead (ls.dropWhile (fun l => l.isEmpty))) := by
  induction ls with
  | nil => rfl
  | cons h t ih =>
    have ih2 := ih (fun l hl => hr l (by simp [hl]))
    by_cases hh : h = []
    · subst hh
      rw [show (([] : PyStr) :: t).dropWhile (fun l => l.isEmpty) =
            t.dropWhile (fun l => l.isEmpty) from by simp]
      cases t with
      | nil => rfl
      | cons m r =>
        rw [joinNL_cons [] (m :: r) (by simp), List.nil_append]
        rw [show lstrip ('\n' :: joinNL (m :: r)) = lstrip (joinNL (m :: r)) from by
          show List.dropWhile pyIsSpace _ = lstrip _
          rw [List.dropWhile_cons_of_pos (by decide)]
          rfl]
        exact ih2
    · have hrh : rstrip h = h := hr h (by simp)
      have hlh : lstrip h ≠ [] := lstrip_ne_nil_of_rstrip_inv h hrh hh
      rw [show ((h :: t).dropWhile (fun l => l.isEmpty)) = h :: t from by
        rw [List.dropWhile_cons_of_neg (by simpa using hh)]]
      cases t with
      | nil => rfl
      | cons m r =>
        rw [joinNL_cons h (m :: r) (by simp), lstrip_append, if_neg hlh]
        show lstrip h ++ '\n' :: joinNL (m :: r) = joinNL (lstrip h :: m :: r)
        rw [joinNL_cons (lstrip h) (m :: r) (by simp)]

theorem strip_joinNL (ls : List PyStr) (hr : ∀ l ∈ ls, rstrip l = l) :
    strip (joinNL ls) = joinNL (postJoin ls) := by
  unfold strip postJoin
  rw [rstrip_joinNL ls hr]
  rw [lstrip_joinNL (dropTrailEmpty ls)
    (fun l hl => hr l (by
      unfold dropTrailEmpty at hl
      rw [List.mem_reverse] at hl
      have := (List.dropWhile_suffix (fun l : PyStr => l.isEmpty)).subset hl
      rwa [List.mem_reverse] at this))]

theorem mem_of_mem_dropTrailEmpty {l : PyStr} {ls : List PyStr}
    (h : l ∈ dropTrailEmpty ls) : l ∈ ls := by
  unfold dropTrailEmpty at h
  rw [List.mem_reverse] at h
  have := (List.dropWhile_suffix (fun l : PyStr => l.isEmpty)).subset h
  rwa [List.mem_reverse] at this

theorem mem_postJoin_cases {l : PyStr} {ls : List PyStr} (h : l ∈ postJoin ls) :
    l ∈ ls ∨ ∃ h0 ∈ ls, l = lstrip h0 := by
  unfold postJoin at h
  cases hm : (dropTrailEmpty ls).dropWhile (fun l => l.isEmpty) with
  | nil => rw [hm] at h; cases h
  | cons h0 t =>
    rw [hm] at h
    have hsub : ∀ x ∈ h0 :: t, x ∈ ls := by
      intro x hx
      rw [← hm] at hx
      exact mem_of_mem_dropTrailEmpty ((List.dropWhile_suffix _).subset hx)
    rcases List.mem_cons.mp h with rfl | hl
    · exact Or.inr ⟨h0, hsub h0 (by simp), rfl⟩
    · exact Or.inl (hsub l (by simp [hl]))

theorem dropTrailEmpty_eq_self (ls : List PyStr)
    (hlast : ∀ l, ls.getLast? = some l → l ≠ []) :
    dropTrailEmpty ls = ls := by
  induction ls using List.reverseRecOn with
  | nil => rfl
  | append_singleton ls d _ =>
    exact dropTrailEmpty_concat_ne ls d (hlast d (by rw [List.getLast?_concat]))

theorem postJoin_eq_self (ls : List PyStr)
    (hhead : ∀ h0, ls.head? = some h0 → h0 ≠ [] ∧ lstrip h0 = h0)
    (hlast : ∀ l, ls.getLast? = some l → l ≠ []) :
    postJoin ls = ls := by
  unfold postJoin
  rw [dropTrailEmpty_eq_self ls hlast]
  cases ls with
  | nil => rfl
  | cons h t =>
    obtain ⟨hne, hls⟩ := hhead h (by simp)
    rw [List.dropWhile_cons_of_neg (by simpa using hne)]
    show lstrip h :: t = h :: t
    rw [hls]

/-! The fixed point: a newline-join of boundary-free, right-stripped,
already-asciiized lines with nonempty left-stripped first line and
nonempty last line passes through `normalize_plain` unchanged. -/

theorem mem_of_mem_lstrip {c : Char} {s : PyStr} (h : c ∈ lstrip s) : c ∈ s :=
  (List.dropWhile_suffix pyIsSpace).subset h

theorem asciiize_inv_lstrip (x : PyStr) (hx : asciiize x = x) :
    asciiize (lstrip x) = lstrip x := by
  apply asciiize_eq_self
  intro pr hpr hmem
  have h2 := asciiize_notMem_src x pr hpr
  rw [hx] at h2
  exact h2 (mem_of_mem_lstrip hmem)

theorem noBoundary_ascii_dst :
    ∀ pr ∈ ASCII_MAP, ∀ c ∈ pr.2, isLineBoundary c = false := by decide

theorem dropWhile_head_false {α : Type} {p : α → Bool} {x : List α} {a : α} {t : List α}
    (h : x.dropWhile p = a :: t) : p a = false := by
  induction x with
  | nil => cases h
  | cons b y ih =>
    by_cases hb : p b
    · rw [List.dropWhile_cons_of_pos hb] at h
      exact ih h
    · rw [List.dropWhile_cons_of_neg hb] at h
      injection h with h1 h2
      subst h1
      simpa using hb

theorem getLast?_dropTrailEmpty {ls : List PyStr} {l : PyStr}
    (h : (dropTrailEmpty ls).getLast? = some l) : l ≠ [] := by
  unfold dropTrailEmpty at h
  rw [List.getLast?_reverse] at h
  cases hm : ls.reverse.dropWhile (fun l : PyStr => l.isEmpty) with
  | nil => rw [hm] at h; cases h
  | cons a t =>
    rw [hm] at h
    have ha : a = l := by simpa using h
    subst ha
    have := dropWhile_head_false hm
    simpa using this

theorem normalize_plain_fix (segs : List PyStr)
    (hnb : ∀ l ∈ segs, ∀ c ∈ l, isLineBoundary c = false)
    (hr : ∀ l ∈ segs, rstrip l = l)
    (ha : ∀ l ∈ segs, asciiize l = l)
    (hhead : ∀ h0, segs.head? = some h0 → h0 ≠ [] ∧ lstrip h0 = h0)
    (hlast : ∀ l, segs.getLast? = some l → l ≠ []) :
    normalizePlainStr (joinNL segs) = joinNL segs := by
  show normalize_plain (splitlines (joinNL segs)) = joinNL segs
  rw [splitlines_joinNL segs hnb hlast]
  show strip (joinNL (segs.map (fun l => asciiize (rstrip l)))) = joinNL segs
  have hmap : segs.map (fun l => asciiize (rstrip l)) = segs := by
    have h1 : ∀ l ∈ segs, asciiize (rstrip l) = id l := by
      intro l hl
      rw [hr l hl, ha l hl]
      rfl
    rw [List.map_congr_left h1, List.map_id]
  rw [hmap, strip_joinNL segs hr, postJoin_eq_self segs hhead hlast]

theorem normalizePlainStr_normalize_plain (ls : List PyStr)
    (hnb : ∀ l ∈ ls, ∀ c ∈ l, isLineBoundary c = false) :
    normalizePlainStr (normalize_plain ls) = normalize_plain ls := by
  have hrm : ∀ l ∈ ls.map (fun l => asciiize (rstrip l)), rstrip l = l := by
    intro l hl
    rw [List.mem_map] at hl
    obtain ⟨l', -, rfl⟩ := hl
    exact rstrip_inv_asciiize (rstrip l') (rstrip_idem l')
  have ham : ∀ l ∈ ls.map (fun l => asciiize (rstrip l)), asciiize l = l := by
    intro l hl
    rw [List.mem_map] at hl
    obtain ⟨l', -, rfl⟩ := hl
    exact asciiize_asciiize (rstrip l')
  have hnm : ∀ l ∈ ls.map (fun l => asciiize (rstrip l)), ∀ c ∈ l,
      isLineBoundary c = false := by
    intro l hl c hc
    rw [List.mem_map] at hl
    obtain ⟨l', hl', rfl⟩ := hl
    rcases mem_asciiize_cases hc with h1 | ⟨pr, hpr, h2⟩
    · exact hnb l' hl' c (mem_of_mem_rstrip h1)
    · exact noBoundary_ascii_dst pr hpr c h2
  unfold normalize_plain
  generalize hms : ls.map (fun l => asciiize (rstrip l)) = ms at hrm ham hnm ⊢
  rw [strip_joinNL ms hrm]
  apply normalize_plain_fix (postJoin ms)
  · intro l hl c hc
    rcases mem_postJoin_cases hl with h1 | ⟨h0, hh0, rfl⟩
    · exact hnm l h1 c hc
    · exact hnm h0 hh0 c (mem_of_mem_lstrip hc)
  · intro l hl
    rcases mem_postJoin_cases hl with h1 | ⟨h0, hh0, rfl⟩
    · exact hrm l h1
    · exact rstrip_inv_lstrip h0 (hrm h0 hh0)
  · intro l hl
    rcases mem_postJoin_cases hl with h1 | ⟨h0, hh0, rfl⟩
    · exact ham l h1
    · exact asciiize_inv_lstrip h0 (ham h0 hh0)
  · intro h0 hh0
    unfold postJoin at hh0
    cases hm : (dropTrailEmpty ms).dropWhile (fun l : PyStr => l.isEmpty) with
    | nil => rw [hm] at hh0; cases hh0
    | cons a t =>
      rw [hm] at hh0
      have hh2 : h0 = lstrip a := by
        have : (lstrip a :: t).head? = some h0 := hh0
        simpa using this.symm
      subst hh2
      have hane : a ≠ [] := by
        have := dropWhile_head_false hm
        simpa using this
      have hmem : a ∈ ms := mem_of_mem_dropTrailEmpty
        ((List.dropWhile_suffix (fun l : PyStr => l.isEmpty)).subset (by rw [hm]; simp))
      have hra : rstrip a = a := hrm a hmem
      exact ⟨lstrip_ne_nil_of_rstrip_inv a hra hane, lstrip_idem a⟩
  · intro l hl
    unfold postJoin at hl
    cases hm : (dropTrailEmpty ms).dropWhile (fun l : PyStr => l.isEmpty) with
    | nil => rw [hm] at hl; cases hl
    | cons a t =>
      rw [hm] at hl
      cases t with
      | nil =>
        have hl2 : l = lstrip a := by
          have : ([lstrip a] : List PyStr).getLast? = some l := hl
          simpa using this.symm
        subst hl2
        have hane : a ≠ [] := by
          have := dropWhile_head_false hm
          simpa using this
        have hmem : a ∈ ms := mem_of_mem_dropTrailEmpty
          ((List.dropWhile_suffix (fun l : PyStr => l.isEmpty)).subset (by rw [hm]; simp))
        exact lstrip_ne_nil_of_rstrip_inv a (hrm a hmem) hane
      | cons b r =>
        have h1 : (b :: r).getLast? = some l := by
          have : (lstrip a :: b :: r).getLast? = some l := hl
          rwa [List.getLast?_cons_cons] at this
        have h2 : (dropTrailEmpty ms).getLast? = some l := by
          obtain ⟨pre, hpre⟩ :=
            List.dropWhile_suffix (fun l : PyStr => l.isEmpty) (l := dropTrailEmpty ms)
          rw [hm] at hpre
          rw [← hpre, List.getLast?_append, List.getLast?_cons_cons, h1]
          rfl
        exact getLast?_dropTrailEmpty h2

/-! ## C3: idempotence of the two normalizers -/

/-- C3 counterexample: the markdown-stripping normalizer is not idempotent.
On `"a\nx *  *\nb"` the first pass unwraps the all-whitespace italic span
`*  *` to two spaces, leaving the middle line `"x   "` with trailing
whitespace that only the second pass right-strips, so applying
`normalize_markdown` to its own output changes it again. -/
theorem normalize_markdown_counterexample :
    normalizeMarkdownStr (normalizeMarkdownStr (pys "a\nx *  *\nb")) ≠
      normalizeMarkdownStr (pys "a\nx *  *\nb") := by decide

/-- C3 amended: the plain normalizer is idempotent.  For every input string
`s`, `normalize_plain` applied to the line split of its own output returns
that output unchanged: each surviving line is right-stripped and free of
`ASCII_MAP` sources, the first is left-stripped and nonempty and the last is
nonempty, so the second pass changes nothing.  (The markdown-stripping
variant is not idempotent, because unwrapping an italic span can create new
trailing whitespace.) -/
theorem normalize_plain_idempotent (s : PyStr) :
    normalizePlainStr (normalizePlainStr s) = normalizePlainStr s :=
  normalizePlainStr_normalize_plain (splitlines s) (splitlines_noBoundary s)
